import Mathlib

/-!
Verification of the AIND-Isolation game agent (`game_agent.py`).

The agent is a time-bounded adversarial search engine: `CustomPlayer` runs
depth-limited `minimax` or `alphabeta` search over an abstract board state,
driven by an iterative-deepening loop in `get_move` under a cooperative
deadline.  The board (`isolation.Board`) is an external collaborator; it is
modelled here as a record of the capabilities the agent consumes (legal-move
enumeration, move forecasting, terminal queries, player identities).

Python floats with `float('inf')` are modelled as rationals extended with
bottom (-infinity) and top (+infinity); the search only compares and takes
min/max of scores, for which this model is exact.  The real-time clock
`time_left` is modelled as a function from the index of the query to the
reported remaining milliseconds, and every timed search function threads the
number of clock queries made so far; raising `Timeout` is modelled as
returning `none`.
-/

set_option linter.unusedVariables false
set_option autoImplicit false

/-- A move is a (row, col) pair of integers. -/
abbrev Move := Int × Int

/-- The NO_MOVE sentinel `(-1, -1)`. -/
def noMove : Move := (-1, -1)

/-- Score values: rationals extended with -infinity (bottom) and +infinity
(top), modelling Python floats together with `float('inf')` and
`float('-inf')`. -/
abbrev Val := WithBot (WithTop ℚ)

/-- The module-level constant `infinity = float('inf')` (game_agent.py, line 11). -/
def infinity : Val := ⊤

/-- Embedding of a finite rational score into `Val`. -/
def finV (q : ℚ) : Val := ((q : WithTop ℚ) : Val)

variable {σ π : Type}

/-- Abstract interface of the external `isolation.Board` collaborator, exactly
the capability set the agent consumes (spec section 6): legal-move enumeration
for a given player, move forecasting, active-player and opponent queries, and
the terminal-state tests. -/
structure Board (σ π : Type) where
  get_legal_moves : σ → π → List Move
  forecast_move : σ → Move → σ
  active_player : σ → π
  get_opponent : σ → π → π
  is_loser : σ → π → Bool
  is_winner : σ → π → Bool

/-- The no-argument call `game.get_legal_moves()`: per the board contract it
returns the legal moves of the player currently holding the move. -/
def Board.legal_moves (B : Board σ π) (game : σ) : List Move :=
  B.get_legal_moves game (B.active_player game)

/-- Embedding of `custom_score_lookahead_both` (game_agent.py, lines 271-325):
loser gives -infinity, winner +infinity; otherwise, with no own moves left,
-infinity; otherwise a 0.5/0.5 mix of the current move-count difference and the
one-ply-lookahead average move-count difference.  (The `if lookahead_moves == 0`
branch in the source is `pass` and has no effect, so it is omitted.) -/
def custom_score_lookahead_both (B : Board σ π) (game : σ) (player : π) : Val :=
  if B.is_loser game player then ⊥
  else if B.is_winner game player then infinity
  else
    let own_moves := B.get_legal_moves game player
    let opp_moves : ℚ := (B.get_legal_moves game (B.get_opponent game player)).length
    let mixing_factor : ℚ := 1/2
    if own_moves.length = 0 then ⊥
    else
      let lookahead_moves : ℚ :=
        ((own_moves.map fun m =>
          ((B.get_legal_moves (B.forecast_move game m) player).length : ℚ)).sum)
          / own_moves.length
      let opp_moves_next_level : ℚ :=
        ((own_moves.map fun m =>
          ((B.get_legal_moves (B.forecast_move game m)
              (B.get_opponent game player)).length : ℚ)).sum)
          / own_moves.length
      finV (mixing_factor * (own_moves.length - opp_moves)
            + (1 - mixing_factor) * (lookahead_moves - opp_moves_next_level))

/-- Embedding of `custom_score` (game_agent.py, lines 327-354): the configured
evaluator dispatches to `custom_score_lookahead_both`. -/
def custom_score (B : Board σ π) (game : σ) (player : π) : Val :=
  custom_score_lookahead_both B game player

/-! ## Pure (untimed) search

These functions are the search bodies with the `Timeout` checks erased; the
timed versions below add the clock and are related to these by the soundness
and completeness lemmas further down. -/

/-- The `for move in game.get_legal_moves()` loop of minimax's `max_value`
(game_agent.py, lines 528-533): running score and move, updated only on a
strictly larger child value. -/
def mm_loop_max (f : Move → Val) : List Move → Val → Move → Val × Move
  | [], score, next_move => (score, next_move)
  | m :: ms, score, next_move =>
    let v := f m
    if score < v then mm_loop_max f ms v m
    else mm_loop_max f ms score next_move

/-- The loop of minimax's `min_value` (game_agent.py, lines 512-517): updated
only on a strictly smaller child value. -/
def mm_loop_min (f : Move → Val) : List Move → Val → Move → Val × Move
  | [], score, next_move => (score, next_move)
  | m :: ms, score, next_move =>
    let v := f m
    if v < score then mm_loop_min f ms v m
    else mm_loop_min f ms score next_move

mutual

/-- Minimax helper `max_value` (game_agent.py, lines 520-534), with the
timeout check erased: at depth 0 or with no legal moves, evaluate the state
for the fixed perspective `player` and return NO_MOVE; otherwise fold the
strict-update loop over the active player's moves starting from -infinity. -/
def minimax_max_value (B : Board σ π) (score_fn : σ → π → Val) (player : π)
    (game : σ) (depth : ℕ) : Val × Move :=
  match depth with
  | 0 => (score_fn game player, noMove)
  | d + 1 =>
    if B.legal_moves game = [] then (score_fn game player, noMove)
    else
      mm_loop_max
        (fun m => (minimax_min_value B score_fn player (B.forecast_move game m) d).1)
        (B.legal_moves game) ⊥ noMove

/-- Minimax helper `min_value` (game_agent.py, lines 504-518), with the
timeout check erased: symmetric to `max_value`, starting from +infinity. -/
def minimax_min_value (B : Board σ π) (score_fn : σ → π → Val) (player : π)
    (game : σ) (depth : ℕ) : Val × Move :=
  match depth with
  | 0 => (score_fn game player, noMove)
  | d + 1 =>
    if B.legal_moves game = [] then (score_fn game player, noMove)
    else
      mm_loop_min
        (fun m => (minimax_max_value B score_fn player (B.forecast_move game m) d).1)
        (B.legal_moves game) infinity noMove

end

/-- `CustomPlayer.minimax` (game_agent.py, lines 477-544) for the default
`maximizing_player=True` (the minimizing root is an unimplemented fatal branch
in the source): fix the perspective player to the active player of the entry
state and run `max_value`. -/
def minimax (B : Board σ π) (score_fn : σ → π → Val) (game : σ) (depth : ℕ) :
    Val × Move :=
  let player := B.active_player game
  minimax_max_value B score_fn player game depth

/-- The loop of alphabeta's `max_value` (game_agent.py, lines 610-621): strict
update, then beta cutoff (`score >= beta` breaks), then `alpha = max(alpha,
score)` threaded into the next sibling. `beta` is fixed across the loop. -/
def ab_loop_max (f : Move → Val → Val) (beta : Val) :
    List Move → Val → Move → Val → Val × Move
  | [], score, next_move, _ => (score, next_move)
  | m :: ms, score, next_move, alpha =>
    let v := f m alpha
    let score' := if score < v then v else score
    let next_move' := if score < v then m else next_move
    if beta ≤ score' then (score', next_move')
    else ab_loop_max f beta ms score' next_move' (max alpha score')

/-- The loop of alphabeta's `min_value` (game_agent.py, lines 588-599): strict
update, alpha cutoff (`score <= alpha` breaks), then `beta = min(beta, score)`
threaded into the next sibling. `alpha` is fixed across the loop. -/
def ab_loop_min (f : Move → Val → Val) (alpha : Val) :
    List Move → Val → Move → Val → Val × Move
  | [], score, next_move, _ => (score, next_move)
  | m :: ms, score, next_move, beta =>
    let v := f m beta
    let score' := if v < score then v else score
    let next_move' := if v < score then m else next_move
    if score' ≤ alpha then (score', next_move')
    else ab_loop_min f alpha ms score' next_move' (min beta score')

mutual

/-- Alphabeta helper `max_value` (game_agent.py, lines 601-621), with the
timeout check erased.  Children are explored through `min_value` with the
current `alpha` and the fixed `beta`. -/
def alphabeta_max_value (B : Board σ π) (score_fn : σ → π → Val) (player : π)
    (game : σ) (depth : ℕ) (alpha beta : Val) : Val × Move :=
  match depth with
  | 0 => (score_fn game player, noMove)
  | d + 1 =>
    if B.legal_moves game = [] then (score_fn game player, noMove)
    else
      ab_loop_max
        (fun m a =>
          (alphabeta_min_value B score_fn player (B.forecast_move game m) d a beta).1)
        beta (B.legal_moves game) ⊥ noMove alpha

/-- Alphabeta helper `min_value` (game_agent.py, lines 579-599), with the
timeout check erased. -/
def alphabeta_min_value (B : Board σ π) (score_fn : σ → π → Val) (player : π)
    (game : σ) (depth : ℕ) (alpha beta : Val) : Val × Move :=
  match depth with
  | 0 => (score_fn game player, noMove)
  | d + 1 =>
    if B.legal_moves game = [] then (score_fn game player, noMove)
    else
      ab_loop_min
        (fun m b =>
          (alphabeta_max_value B score_fn player (B.forecast_move game m) d alpha b).1)
        alpha (B.legal_moves game) infinity noMove beta

end

/-- `CustomPlayer.alphabeta` (game_agent.py, lines 546-633) for the default
`maximizing_player=True`, with default bounds `alpha = -infinity`,
`beta = +infinity` as in the source signature. -/
def alphabeta (B : Board σ π) (score_fn : σ → π → Val) (game : σ) (depth : ℕ)
    (alpha : Val := ⊥) (beta : Val := ⊤) : Val × Move :=
  let player := B.active_player game
  alphabeta_max_value B score_fn player game depth alpha beta

/-! ## Timed search

The clock `clock : ℕ → ℚ` gives the value reported by the `q`-th call of
`time_left()` (0-indexed).  Every timed function takes the number `t` of clock
queries made so far and returns it updated; a raised `Timeout` is the `none`
result.  Each helper performs `if self.time_left() < self.TIMER_THRESHOLD:
raise Timeout()` on entry, consuming one query. -/

/-- Timed variant of `mm_loop_max`: the child evaluation may time out, in
which case the exception propagates out of the loop. -/
def mm_loop_maxT (f : Move → ℕ → Option Val × ℕ) :
    List Move → Val → Move → ℕ → Option (Val × Move) × ℕ
  | [], score, next_move, t => (some (score, next_move), t)
  | m :: ms, score, next_move, t =>
    match f m t with
    | (none, t') => (none, t')
    | (some v, t') =>
      if score < v then mm_loop_maxT f ms v m t'
      else mm_loop_maxT f ms score next_move t'

/-- Timed variant of `mm_loop_min`. -/
def mm_loop_minT (f : Move → ℕ → Option Val × ℕ) :
    List Move → Val → Move → ℕ → Option (Val × Move) × ℕ
  | [], score, next_move, t => (some (score, next_move), t)
  | m :: ms, score, next_move, t =>
    match f m t with
    | (none, t') => (none, t')
    | (some v, t') =>
      if v < score then mm_loop_minT f ms v m t'
      else mm_loop_minT f ms score next_move t'

/-- Drop the move component of a timed search result, as the `v, _ =` pattern
in the source loops does. -/
def fstT (r : Option (Val × Move) × ℕ) : Option Val × ℕ :=
  (r.1.map Prod.fst, r.2)

mutual

/-- Timed minimax `max_value` (game_agent.py, lines 520-534), including the
entry timeout check. -/
def minimax_max_valueT (B : Board σ π) (score_fn : σ → π → Val)
    (clock : ℕ → ℚ) (thr : ℚ) (player : π) (game : σ) (depth : ℕ) (t : ℕ) :
    Option (Val × Move) × ℕ :=
  if clock t < thr then (none, t + 1)
  else
    match depth with
    | 0 => (some (score_fn game player, noMove), t + 1)
    | d + 1 =>
      if B.legal_moves game = [] then (some (score_fn game player, noMove), t + 1)
      else
        mm_loop_maxT
          (fun m u =>
            fstT (minimax_min_valueT B score_fn clock thr player
              (B.forecast_move game m) d u))
          (B.legal_moves game) ⊥ noMove (t + 1)

/-- Timed minimax `min_value` (game_agent.py, lines 504-518). -/
def minimax_min_valueT (B : Board σ π) (score_fn : σ → π → Val)
    (clock : ℕ → ℚ) (thr : ℚ) (player : π) (game : σ) (depth : ℕ) (t : ℕ) :
    Option (Val × Move) × ℕ :=
  if clock t < thr then (none, t + 1)
  else
    match depth with
    | 0 => (some (score_fn game player, noMove), t + 1)
    | d + 1 =>
      if B.legal_moves game = [] then (some (score_fn game player, noMove), t + 1)
      else
        mm_loop_minT
          (fun m u =>
            fstT (minimax_max_valueT B score_fn clock thr player
              (B.forecast_move game m) d u))
          (B.legal_moves game) infinity noMove (t + 1)

end

/-- Timed `CustomPlayer.minimax` (lines 477-544): the root performs its own
timeout check (line 536) and then calls `max_value` with the perspective
player fixed to the entry state's active player. -/
def minimaxT (B : Board σ π) (score_fn : σ → π → Val) (clock : ℕ → ℚ)
    (thr : ℚ) (game : σ) (depth : ℕ) (t : ℕ) : Option (Val × Move) × ℕ :=
  let player := B.active_player game
  if clock t < thr then (none, t + 1)
  else minimax_max_valueT B score_fn clock thr player game depth (t + 1)

/-- Timed variant of `ab_loop_max`. -/
def ab_loop_maxT (f : Move → Val → ℕ → Option Val × ℕ) (beta : Val) :
    List Move → Val → Move → Val → ℕ → Option (Val × Move) × ℕ
  | [], score, next_move, _, t => (some (score, next_move), t)
  | m :: ms, score, next_move, alpha, t =>
    match f m alpha t with
    | (none, t') => (none, t')
    | (some v, t') =>
      let score' := if score < v then v else score
      let next_move' := if score < v then m else next_move
      if beta ≤ score' then (some (score', next_move'), t')
      else ab_loop_maxT f beta ms score' next_move' (max alpha score') t'

/-- Timed variant of `ab_loop_min`. -/
def ab_loop_minT (f : Move → Val → ℕ → Option Val × ℕ) (alpha : Val) :
    List Move → Val → Move → Val → ℕ → Option (Val × Move) × ℕ
  | [], score, next_move, _, t => (some (score, next_move), t)
  | m :: ms, score, next_move, beta, t =>
    match f m beta t with
    | (none, t') => (none, t')
    | (some v, t') =>
      let score' := if v < score then v else score
      let next_move' := if v < score then m else next_move
      if score' ≤ alpha then (some (score', next_move'), t')
      else ab_loop_minT f alpha ms score' next_move' (min beta score') t'

mutual

/-- Timed alphabeta `max_value` (game_agent.py, lines 601-621). -/
def alphabeta_max_valueT (B : Board σ π) (score_fn : σ → π → Val)
    (clock : ℕ → ℚ) (thr : ℚ) (player : π) (game : σ) (depth : ℕ)
    (alpha beta : Val) (t : ℕ) : Option (Val × Move) × ℕ :=
  if clock t < thr then (none, t + 1)
  else
    match depth with
    | 0 => (some (score_fn game player, noMove), t + 1)
    | d + 1 =>
      if B.legal_moves game = [] then (some (score_fn game player, noMove), t + 1)
      else
        ab_loop_maxT
          (fun m a u =>
            fstT (alphabeta_min_valueT B score_fn clock thr player
              (B.forecast_move game m) d a beta u))
          beta (B.legal_moves game) ⊥ noMove alpha (t + 1)

/-- Timed alphabeta `min_value` (game_agent.py, lines 579-599). -/
def alphabeta_min_valueT (B : Board σ π) (score_fn : σ → π → Val)
    (clock : ℕ → ℚ) (thr : ℚ) (player : π) (game : σ) (depth : ℕ)
    (alpha beta : Val) (t : ℕ) : Option (Val × Move) × ℕ :=
  if clock t < thr then (none, t + 1)
  else
    match depth with
    | 0 => (some (score_fn game player, noMove), t + 1)
    | d + 1 =>
      if B.legal_moves game = [] then (some (score_fn game player, noMove), t + 1)
      else
        ab_loop_minT
          (fun m b u =>
            fstT (alphabeta_max_valueT B score_fn clock thr player
              (B.forecast_move game m) d alpha b u))
          alpha (B.legal_moves game) infinity noMove beta (t + 1)

end

/-- Timed `CustomPlayer.alphabeta` (lines 546-633): root timeout check
(line 623), then `max_value` with the given window. -/
def alphabetaT (B : Board σ π) (score_fn : σ → π → Val) (clock : ℕ → ℚ)
    (thr : ℚ) (game : σ) (depth : ℕ) (alpha beta : Val) (t : ℕ) :
    Option (Val × Move) × ℕ :=
  if clock t < thr then (none, t + 1)
  else
    let player := B.active_player game
    alphabeta_max_valueT B score_fn clock thr player game depth alpha beta (t + 1)

/-! ## The iterative-deepening driver `get_move` -/

/-- Configuration of `CustomPlayer.__init__` (game_agent.py, lines 388-395):
`score` is the pluggable `score_fn` and `TIMER_THRESHOLD` the `timeout`
margin. -/
structure CustomPlayer (σ π : Type) where
  search_depth : ℕ
  score : σ → π → Val
  iterative : Bool
  method : String
  TIMER_THRESHOLD : ℚ

/-- Outcome of a `get_move` call: a normal return carrying the move and the
number of clock queries made, or an uncaught exception (the `raise Exception`
for an unrecognized method, which the `except Timeout` clause does not
catch). -/
inductive GetMoveResult where
  | returns (move : Move) (queries : ℕ)
  | raises
deriving DecidableEq

/-- The `search_alg(game, depth)` call in `get_move`'s loop, dispatched on
`self.method` (lines 452-457): `alphabeta` is invoked with its default bounds. -/
def run_search (P : CustomPlayer σ π) (B : Board σ π) (clock : ℕ → ℚ)
    (game : σ) (depth : ℕ) (t : ℕ) : Option (Val × Move) × ℕ :=
  if P.method = "minimax" then
    minimaxT B P.score clock P.TIMER_THRESHOLD game depth t
  else
    alphabetaT B P.score clock P.TIMER_THRESHOLD game depth ⊥ ⊤ t

/-- The `while` loop of `get_move` (game_agent.py, lines 466-469), with
explicit fuel: `none` means the loop is still running after `fuel` iterations.
By Python operator precedence the guard reads `iterative or (depth <=
search_depth and move not in TERMINAL_MOVE)`.  A `Timeout` raised by the
search is caught and the current `move` is returned (lines 471-475). -/
def get_move_loop (P : CustomPlayer σ π) (B : Board σ π) (clock : ℕ → ℚ)
    (game : σ) : ℕ → ℕ → Move → ℕ → Option GetMoveResult
  | 0, _, _, _ => none
  | fuel + 1, depth, move, t =>
    if P.iterative = true ∨ (depth ≤ P.search_depth ∧ move ≠ noMove) then
      match run_search P B clock game depth t with
      | (none, t') => some (.returns move t')
      | (some (_, mv), t') => get_move_loop P B clock game fuel (depth + 1) mv t'
    else some (.returns move t)

/-- `CustomPlayer.get_move` (game_agent.py, lines 397-475): with no legal
moves return `(-1, -1)` immediately (before any clock query and before the
method dispatch); otherwise initialize the fallback `move = legal_moves[0]`,
dispatch the search method (an unrecognized method raises an uncaught
exception), start at depth 0 when iterative deepening is on and at
`search_depth` otherwise, and run the deepening loop. -/
def get_move (P : CustomPlayer σ π) (B : Board σ π) (game : σ)
    (legal_moves : List Move) (clock : ℕ → ℚ) (fuel : ℕ) :
    Option GetMoveResult :=
  match legal_moves with
  | [] => some (.returns noMove 0)
  | m0 :: _ =>
    if P.method = "minimax" ∨ P.method = "alphabeta" then
      get_move_loop P B clock game fuel
        (if P.iterative then 0 else P.search_depth) m0 0
    else some .raises

/-! ## Lemmas about the minimax loops -/

theorem mm_loop_max_mono (f : Move → Val) :
    ∀ (ms : List Move) (s : Val) (mv : Move), s ≤ (mm_loop_max f ms s mv).1 := by
  intro ms
  induction ms with
  | nil => intro s mv; simp [mm_loop_max]
  | cons m ms ih =>
    intro s mv
    simp only [mm_loop_max]
    by_cases h : s < f m
    · rw [if_pos h]
      exact le_trans (le_of_lt h) (ih (f m) m)
    · rw [if_neg h]
      exact ih s mv

theorem mm_loop_min_mono (f : Move → Val) :
    ∀ (ms : List Move) (s : Val) (mv : Move), (mm_loop_min f ms s mv).1 ≤ s := by
  intro ms
  induction ms with
  | nil => intro s mv; simp [mm_loop_min]
  | cons m ms ih =>
    intro s mv
    simp only [mm_loop_min]
    by_cases h : f m < s
    · rw [if_pos h]
      exact le_trans (ih (f m) m) (le_of_lt h)
    · rw [if_neg h]
      exact ih s mv

theorem mm_loop_max_ub (f : Move → Val) :
    ∀ (ms : List Move) (s : Val) (mv : Move) (x : Move), x ∈ ms →
      f x ≤ (mm_loop_max f ms s mv).1 := by
  intro ms
  induction ms with
  | nil => intro s mv x hx; cases hx
  | cons m ms ih =>
    intro s mv x hx
    simp only [mm_loop_max]
    rcases List.mem_cons.mp hx with hx | hx
    · subst hx
      by_cases h : s < f x
      · rw [if_pos h]
        exact mm_loop_max_mono f ms (f x) x
      · rw [if_neg h]
        exact le_trans (le_of_not_lt h) (mm_loop_max_mono f ms s mv)
    · by_cases h : s < f m
      · rw [if_pos h]; exact ih (f m) m x hx
      · rw [if_neg h]; exact ih s mv x hx

theorem mm_loop_min_lb (f : Move → Val) :
    ∀ (ms : List Move) (s : Val) (mv : Move) (x : Move), x ∈ ms →
      (mm_loop_min f ms s mv).1 ≤ f x := by
  intro ms
  induction ms with
  | nil => intro s mv x hx; cases hx
  | cons m ms ih =>
    intro s mv x hx
    simp only [mm_loop_min]
    rcases List.mem_cons.mp hx with hx | hx
    · subst hx
      by_cases h : f x < s
      · rw [if_pos h]
        exact mm_loop_min_mono f ms (f x) x
      · rw [if_neg h]
        exact le_trans (mm_loop_min_mono f ms s mv) (le_of_not_lt h)
    · by_cases h : f m < s
      · rw [if_pos h]; exact ih (f m) m x hx
      · rw [if_neg h]; exact ih s mv x hx

theorem mm_loop_max_le (f : Move → Val) :
    ∀ (ms : List Move) (s : Val) (mv : Move) (c : Val), s ≤ c →
      (∀ x ∈ ms, f x ≤ c) → (mm_loop_max f ms s mv).1 ≤ c := by
  intro ms
  induction ms with
  | nil => intro s mv c hs _; simpa [mm_loop_max] using hs
  | cons m ms ih =>
    intro s mv c hs hall
    simp only [mm_loop_max]
    by_cases h : s < f m
    · rw [if_pos h]
      exact ih (f m) m c (hall m (List.mem_cons_self m ms)) fun x hx =>
        hall x (List.mem_cons_of_mem m hx)
    · rw [if_neg h]
      exact ih s mv c hs fun x hx => hall x (List.mem_cons_of_mem m hx)

theorem mm_loop_min_ge (f : Move → Val) :
    ∀ (ms : List Move) (s : Val) (mv : Move) (c : Val), c ≤ s →
      (∀ x ∈ ms, c ≤ f x) → c ≤ (mm_loop_min f ms s mv).1 := by
  intro ms
  induction ms with
  | nil => intro s mv c hs _; simpa [mm_loop_min] using hs
  | cons m ms ih =>
    intro s mv c hs hall
    simp only [mm_loop_min]
    by_cases h : f m < s
    · rw [if_pos h]
      exact ih (f m) m c (hall m (List.mem_cons_self m ms)) fun x hx =>
        hall x (List.mem_cons_of_mem m hx)
    · rw [if_neg h]
      exact ih s mv c hs fun x hx => hall x (List.mem_cons_of_mem m hx)

theorem mm_loop_max_top (f : Move → Val) :
    ∀ (ms : List Move) (mv : Move), mm_loop_max f ms ⊤ mv = (⊤, mv) := by
  intro ms
  induction ms with
  | nil => intro mv; simp [mm_loop_max]
  | cons m ms ih =>
    intro mv
    simp only [mm_loop_max]
    rw [if_neg (not_top_lt)]
    exact ih mv

/-- First-argmax characterization of the minimax max loop: either no child
ever strictly improved on the initial score and the accumulator is returned
unchanged, or the returned move is the first move (in enumeration order)
attaining the returned value, every earlier move being strictly worse. -/
theorem mm_loop_max_char (f : Move → Val) :
    ∀ (ms : List Move) (s : Val) (mv : Move),
      ((mm_loop_max f ms s mv).1 = s ∧ (mm_loop_max f ms s mv).2 = mv) ∨
      (∃ pre x post, ms = pre ++ x :: post ∧ (mm_loop_max f ms s mv).2 = x ∧
        f x = (mm_loop_max f ms s mv).1 ∧ s < (mm_loop_max f ms s mv).1 ∧
        ∀ y ∈ pre, f y < (mm_loop_max f ms s mv).1) := by
  intro ms
  induction ms with
  | nil => intro s mv; left; simp [mm_loop_max]
  | cons m ms ih =>
    intro s mv
    simp only [mm_loop_max]
    by_cases h : s < f m
    · rw [if_pos h]
      rcases ih (f m) m with ⟨h1, h2⟩ | ⟨pre, x, post, hsplit, hmv, hfx, hlt, hpre⟩
      · right
        exact ⟨[], m, ms, rfl, h2, by rw [h1], by rw [h1]; exact h, by simp⟩
      · right
        refine ⟨m :: pre, x, post, by simp [hsplit], hmv, hfx, lt_trans h hlt, ?_⟩
        intro y hy
        rcases List.mem_cons.mp hy with hy | hy
        · subst hy; exact hlt
        · exact hpre y hy
    · rw [if_neg h]
      rcases ih s mv with ⟨h1, h2⟩ | ⟨pre, x, post, hsplit, hmv, hfx, hlt, hpre⟩
      · left; exact ⟨h1, h2⟩
      · right
        refine ⟨m :: pre, x, post, by simp [hsplit], hmv, hfx, hlt, ?_⟩
        intro y hy
        rcases List.mem_cons.mp hy with hy | hy
        · subst hy; exact lt_of_le_of_lt (le_of_not_lt h) hlt
        · exact hpre y hy

/-- First-argmin characterization of the minimax min loop. -/
theorem mm_loop_min_char (f : Move → Val) :
    ∀ (ms : List Move) (s : Val) (mv : Move),
      ((mm_loop_min f ms s mv).1 = s ∧ (mm_loop_min f ms s mv).2 = mv) ∨
      (∃ pre x post, ms = pre ++ x :: post ∧ (mm_loop_min f ms s mv).2 = x ∧
        f x = (mm_loop_min f ms s mv).1 ∧ (mm_loop_min f ms s mv).1 < s ∧
        ∀ y ∈ pre, (mm_loop_min f ms s mv).1 < f y) := by
  intro ms
  induction ms with
  | nil => intro s mv; left; simp [mm_loop_min]
  | cons m ms ih =>
    intro s mv
    simp only [mm_loop_min]
    by_cases h : f m < s
    · rw [if_pos h]
      rcases ih (f m) m with ⟨h1, h2⟩ | ⟨pre, x, post, hsplit, hmv, hfx, hlt, hpre⟩
      · right
        exact ⟨[], m, ms, rfl, h2, by rw [h1], by rw [h1]; exact h, by simp⟩
      · right
        refine ⟨m :: pre, x, post, by simp [hsplit], hmv, hfx, lt_trans hlt h, ?_⟩
        intro y hy
        rcases List.mem_cons.mp hy with hy | hy
        · subst hy; exact hlt
        · exact hpre y hy
    · rw [if_neg h]
      rcases ih s mv with ⟨h1, h2⟩ | ⟨pre, x, post, hsplit, hmv, hfx, hlt, hpre⟩
      · left; exact ⟨h1, h2⟩
      · right
        refine ⟨m :: pre, x, post, by simp [hsplit], hmv, hfx, hlt, ?_⟩
        intro y hy
        rcases List.mem_cons.mp hy with hy | hy
        · subst hy; exact lt_of_lt_of_le hlt (le_of_not_lt h)
        · exact hpre y hy

/-! ## Lemmas about the alpha-beta loops -/

theorem ab_loop_max_mono (f : Move → Val → Val) (beta : Val) :
    ∀ (ms : List Move) (s : Val) (mv : Move) (a : Val),
      s ≤ (ab_loop_max f beta ms s mv a).1 := by
  intro ms
  induction ms with
  | nil => intro s mv a; simp [ab_loop_max]
  | cons m ms ih =>
    intro s mv a
    simp only [ab_loop_max]
    by_cases h : s < f m a
    · simp only [if_pos h]
      by_cases hb : beta ≤ f m a
      · simp only [if_pos hb]; exact le_of_lt h
      · simp only [if_neg hb]
        exact le_trans (le_of_lt h) (ih (f m a) m (max a (f m a)))
    · simp only [if_neg h]
      by_cases hb : beta ≤ s
      · simp only [if_pos hb]; exact le_refl s
      · simp only [if_neg hb]; exact ih s mv (max a s)

theorem ab_loop_min_mono (f : Move → Val → Val) (alpha : Val) :
    ∀ (ms : List Move) (s : Val) (mv : Move) (b : Val),
      (ab_loop_min f alpha ms s mv b).1 ≤ s := by
  intro ms
  induction ms with
  | nil => intro s mv b; simp [ab_loop_min]
  | cons m ms ih =>
    intro s mv b
    simp only [ab_loop_min]
    by_cases h : f m b < s
    · simp only [if_pos h]
      by_cases ha : f m b ≤ alpha
      · simp only [if_pos ha]; exact le_of_lt h
      · simp only [if_neg ha]
        exact le_trans (ih (f m b) m (min b (f m b))) (le_of_lt h)
    · simp only [if_neg h]
      by_cases ha : s ≤ alpha
      · simp only [if_pos ha]; exact le_refl s
      · simp only [if_neg ha]; exact ih s mv (min b s)

/-- If the max loop finishes below `beta` (no beta cutoff was hit), its result
bounds every true child value from above, given the inductive window property
of the (approximate) child values. -/
theorem ab_loop_max_A (f : Move → Val → Val) (Mf : Move → Val) (beta : Val)
    (hf : ∀ m a, f m a < beta → Mf m ≤ f m a) :
    ∀ (ms : List Move) (s : Val) (mv : Move) (a : Val),
      (ab_loop_max f beta ms s mv a).1 < beta →
      ∀ x ∈ ms, Mf x ≤ (ab_loop_max f beta ms s mv a).1 := by
  intro ms
  induction ms with
  | nil => intro s mv a _ x hx; cases hx
  | cons m ms ih =>
    intro s mv a hr x hx
    simp only [ab_loop_max] at hr ⊢
    by_cases h : s < f m a
    · simp only [if_pos h] at hr ⊢
      by_cases hb : beta ≤ f m a
      · simp only [if_pos hb] at hr
        exact absurd hr (not_lt_of_le hb)
      · simp only [if_neg hb] at hr ⊢
        rcases List.mem_cons.mp hx with hx | hx
        · subst hx
          exact le_trans (hf x a (lt_of_not_le hb))
            (ab_loop_max_mono f beta ms (f x a) x (max a (f x a)))
        · exact ih (f m a) m (max a (f m a)) hr x hx
    · simp only [if_neg h] at hr ⊢
      by_cases hb : beta ≤ s
      · simp only [if_pos hb] at hr
        exact absurd hr (not_lt_of_le hb)
      · simp only [if_neg hb] at hr ⊢
        rcases List.mem_cons.mp hx with hx | hx
        · subst hx
          have hfx : f x a ≤ s := le_of_not_lt h
          have hmf : Mf x ≤ f x a := hf x a (lt_of_le_of_lt hfx (lt_of_not_le hb))
          exact le_trans (le_trans hmf hfx) (ab_loop_max_mono f beta ms s mv (max a s))
        · exact ih s mv (max a s) hr x hx

/-- If the max loop ends strictly above its entry `alpha`, its result is a
lower bound on some examined child's true value. -/
theorem ab_loop_max_B (f : Move → Val → Val) (Mf : Move → Val) (beta : Val)
    (hf : ∀ m a, a < f m a → f m a ≤ Mf m) :
    ∀ (ms : List Move) (s : Val) (mv : Move) (a : Val), s ≤ a →
      a < (ab_loop_max f beta ms s mv a).1 →
      ∃ x ∈ ms, (ab_loop_max f beta ms s mv a).1 ≤ Mf x := by
  intro ms
  induction ms with
  | nil =>
    intro s mv a hsa hr
    simp only [ab_loop_max] at hr
    exact absurd hr (not_lt_of_le hsa)
  | cons m ms ih =>
    intro s mv a hsa hr
    simp only [ab_loop_max] at hr ⊢
    by_cases h : s < f m a
    · simp only [if_pos h] at hr ⊢
      by_cases hb : beta ≤ f m a
      · simp only [if_pos hb] at hr ⊢
        exact ⟨m, List.mem_cons_self m ms, hf m a hr⟩
      · simp only [if_neg hb] at hr ⊢
        by_cases h2 : max a (f m a) < (ab_loop_max f beta ms (f m a) m (max a (f m a))).1
        · obtain ⟨x, hx, hle⟩ := ih (f m a) m (max a (f m a)) (le_max_right a (f m a)) h2
          exact ⟨x, List.mem_cons_of_mem m hx, hle⟩
        · have hle : (ab_loop_max f beta ms (f m a) m (max a (f m a))).1 ≤ max a (f m a) :=
            le_of_not_lt h2
          have hge := ab_loop_max_mono f beta ms (f m a) m (max a (f m a))
          rcases le_total (f m a) a with hva | hav
          · have hra : (ab_loop_max f beta ms (f m a) m (max a (f m a))).1 ≤ a :=
              le_trans hle (le_of_eq (max_eq_left hva))
            exact absurd hr (not_lt_of_le hra)
          · have hle2 : (ab_loop_max f beta ms (f m a) m (max a (f m a))).1 ≤ f m a :=
              le_trans hle (le_of_eq (max_eq_right hav))
            have heq : (ab_loop_max f beta ms (f m a) m (max a (f m a))).1 = f m a :=
              le_antisymm hle2 hge
            rw [heq] at hr ⊢
            exact ⟨m, List.mem_cons_self m ms, hf m a hr⟩
    · simp only [if_neg h] at hr ⊢
      by_cases hb : beta ≤ s
      · simp only [if_pos hb] at hr ⊢
        exact absurd hr (not_lt_of_le hsa)
      · simp only [if_neg hb] at hr ⊢
        rw [max_eq_left hsa] at hr ⊢
        obtain ⟨x, hx, hle⟩ := ih s mv a hsa hr
        exact ⟨x, List.mem_cons_of_mem m hx, hle⟩

/-- Dual of `ab_loop_max_A`: if the min loop ends strictly above `alpha`
(no alpha cutoff was hit), its result bounds every true child value from
below. -/
theorem ab_loop_min_A (f : Move → Val → Val) (Mf : Move → Val) (alpha : Val)
    (hf : ∀ m b, alpha < f m b → f m b ≤ Mf m) :
    ∀ (ms : List Move) (s : Val) (mv : Move) (b : Val),
      alpha < (ab_loop_min f alpha ms s mv b).1 →
      ∀ x ∈ ms, (ab_loop_min f alpha ms s mv b).1 ≤ Mf x := by
  intro ms
  induction ms with
  | nil => intro s mv b _ x hx; cases hx
  | cons m ms ih =>
    intro s mv b hr x hx
    simp only [ab_loop_min] at hr ⊢
    by_cases h : f m b < s
    · simp only [if_pos h] at hr ⊢
      by_cases ha : f m b ≤ alpha
      · simp only [if_pos ha] at hr
        exact absurd hr (not_lt_of_le ha)
      · simp only [if_neg ha] at hr ⊢
        rcases List.mem_cons.mp hx with hx | hx
        · subst hx
          exact le_trans (ab_loop_min_mono f alpha ms (f x b) x (min b (f x b)))
            (hf x b (lt_of_not_le ha))
        · exact ih (f m b) m (min b (f m b)) hr x hx
    · simp only [if_neg h] at hr ⊢
      by_cases ha : s ≤ alpha
      · simp only [if_pos ha] at hr
        exact absurd hr (not_lt_of_le ha)
      · simp only [if_neg ha] at hr ⊢
        rcases List.mem_cons.mp hx with hx | hx
        · subst hx
          have hfx : s ≤ f x b := le_of_not_lt h
          have hmf : f x b ≤ Mf x := hf x b (lt_of_lt_of_le (lt_of_not_le ha) hfx)
          exact le_trans (ab_loop_min_mono f alpha ms s mv (min b s)) (le_trans hfx hmf)
        · exact ih s mv (min b s) hr x hx

/-- Dual of `ab_loop_max_B`: if the min loop ends strictly below both the
threaded `beta` and the initial score, its result is an upper bound on some
examined child's true value. -/
theorem ab_loop_min_B (f : Move → Val → Val) (Mf : Move → Val) (alpha : Val)
    (hf : ∀ m b, f m b < b → Mf m ≤ f m b) :
    ∀ (ms : List Move) (s : Val) (mv : Move) (b : Val),
      (ab_loop_min f alpha ms s mv b).1 < min b s →
      ∃ x ∈ ms, Mf x ≤ (ab_loop_min f alpha ms s mv b).1 := by
  intro ms
  induction ms with
  | nil =>
    intro s mv b hr
    simp only [ab_loop_min] at hr
    exact absurd (lt_of_lt_of_le hr (min_le_right b s)) (lt_irrefl s)
  | cons m ms ih =>
    intro s mv b hr
    simp only [ab_loop_min] at hr ⊢
    by_cases h : f m b < s
    · simp only [if_pos h] at hr ⊢
      by_cases ha : f m b ≤ alpha
      · simp only [if_pos ha] at hr ⊢
        exact ⟨m, List.mem_cons_self m ms,
          hf m b (lt_of_lt_of_le hr (min_le_left b s))⟩
      · simp only [if_neg ha] at hr ⊢
        by_cases h2 : (ab_loop_min f alpha ms (f m b) m (min b (f m b))).1
            < min (min b (f m b)) (f m b)
        · obtain ⟨x, hx, hle⟩ := ih (f m b) m (min b (f m b)) h2
          exact ⟨x, List.mem_cons_of_mem m hx, hle⟩
        · have hle := ab_loop_min_mono f alpha ms (f m b) m (min b (f m b))
          have hge : min (min b (f m b)) (f m b)
              ≤ (ab_loop_min f alpha ms (f m b) m (min b (f m b))).1 :=
            le_of_not_lt h2
          have hminmin : min (min b (f m b)) (f m b) = min b (f m b) := by
            rw [min_assoc, min_self]
          rw [hminmin] at hge
          rcases le_total (f m b) b with hvb | hbv
          · have hge2 : f m b ≤ (ab_loop_min f alpha ms (f m b) m (min b (f m b))).1 :=
              le_trans (le_of_eq (min_eq_right hvb).symm) hge
            have heq : (ab_loop_min f alpha ms (f m b) m (min b (f m b))).1 = f m b :=
              le_antisymm hle hge2
            rw [heq] at hr ⊢
            exact ⟨m, List.mem_cons_self m ms,
              hf m b (lt_of_lt_of_le hr (min_le_left b s))⟩
          · have hge2 : b ≤ (ab_loop_min f alpha ms (f m b) m (min b (f m b))).1 :=
              le_trans (le_of_eq (min_eq_left hbv).symm) hge
            exact absurd (lt_of_le_of_lt hge2 (lt_of_lt_of_le hr (min_le_left b s)))
              (lt_irrefl b)
    · simp only [if_neg h] at hr ⊢
      by_cases ha : s ≤ alpha
      · simp only [if_pos ha] at hr ⊢
        exact absurd (lt_of_lt_of_le hr (min_le_right b s)) (lt_irrefl s)
      · simp only [if_neg ha] at hr ⊢
        have hsub : (ab_loop_min f alpha ms s mv (min b s)).1 < min (min b s) s := by
          rw [min_eq_left (min_le_right b s)]
          exact hr
        obtain ⟨x, hx, hle⟩ := ih s mv (min b s) hsub
        exact ⟨x, List.mem_cons_of_mem m hx, hle⟩

theorem infinity_def : infinity = (⊤ : Val) := rfl

/-- Knuth-Moore window soundness for this fail-soft alpha-beta: at a max node
the returned value bounds the minimax value from above unless a beta cutoff
occurred (result at or above beta), and from below unless it fell at or below
alpha; dually at a min node. -/
theorem km_window (B : Board σ π) (score_fn : σ → π → Val) (player : π) :
    ∀ (d : ℕ) (g : σ) (a b : Val),
      ((alphabeta_max_value B score_fn player g d a b).1 < b →
        (minimax_max_value B score_fn player g d).1
          ≤ (alphabeta_max_value B score_fn player g d a b).1) ∧
      (a < (alphabeta_max_value B score_fn player g d a b).1 →
        (alphabeta_max_value B score_fn player g d a b).1
          ≤ (minimax_max_value B score_fn player g d).1) ∧
      (a < (alphabeta_min_value B score_fn player g d a b).1 →
        (alphabeta_min_value B score_fn player g d a b).1
          ≤ (minimax_min_value B score_fn player g d).1) ∧
      ((alphabeta_min_value B score_fn player g d a b).1 < b →
        (minimax_min_value B score_fn player g d).1
          ≤ (alphabeta_min_value B score_fn player g d a b).1) := by
  intro d
  induction d with
  | zero =>
    intro g a b
    simp only [alphabeta_max_value, alphabeta_min_value, minimax_max_value,
      minimax_min_value]
    exact ⟨fun _ => le_refl _, fun _ => le_refl _, fun _ => le_refl _,
      fun _ => le_refl _⟩
  | succ d ih =>
    intro g a b
    by_cases hleaf : B.legal_moves g = []
    · simp only [alphabeta_max_value, alphabeta_min_value, minimax_max_value,
        minimax_min_value, if_pos hleaf]
      exact ⟨fun _ => le_refl _, fun _ => le_refl _, fun _ => le_refl _,
        fun _ => le_refl _⟩
    · simp only [alphabeta_max_value, alphabeta_min_value, minimax_max_value,
        minimax_min_value, if_neg hleaf]
      refine ⟨?_, ?_, ?_, ?_⟩
      · intro hr
        apply mm_loop_max_le
        · exact bot_le
        · intro x hx
          refine ab_loop_max_A _
            (fun m => (minimax_min_value B score_fn player (B.forecast_move g m) d).1)
            b ?_ (B.legal_moves g) ⊥ noMove a hr x hx
          intro m a' hma
          exact (ih (B.forecast_move g m) a' b).2.2.2 hma
      · intro ha
        obtain ⟨x, hx, hle⟩ := ab_loop_max_B _
          (fun m => (minimax_min_value B score_fn player (B.forecast_move g m) d).1) b
          (fun m a' hma => (ih (B.forecast_move g m) a' b).2.2.1 hma)
          (B.legal_moves g) ⊥ noMove a bot_le ha
        exact le_trans hle (mm_loop_max_ub
          (fun m => (minimax_min_value B score_fn player (B.forecast_move g m) d).1)
          (B.legal_moves g) ⊥ noMove x hx)
      · intro ha
        apply mm_loop_min_ge
        · rw [infinity_def]; exact le_top
        · intro x hx
          refine ab_loop_min_A _
            (fun m => (minimax_max_value B score_fn player (B.forecast_move g m) d).1)
            a ?_ (B.legal_moves g) infinity noMove b ha x hx
          intro m b' hmb
          exact (ih (B.forecast_move g m) a b').2.1 hmb
      · intro hb
        have hb' : (ab_loop_min
            (fun m b' => (alphabeta_max_value B score_fn player
              (B.forecast_move g m) d a b').1)
            a (B.legal_moves g) infinity noMove b).1 < min b infinity := by
          rw [infinity_def, min_eq_left le_top]
          exact hb
        obtain ⟨x, hx, hle⟩ := ab_loop_min_B _
          (fun m => (minimax_max_value B score_fn player (B.forecast_move g m) d).1) a
          (fun m b' hmb => (ih (B.forecast_move g m) a b').1 hmb)
          (B.legal_moves g) infinity noMove b hb'
        exact le_trans (mm_loop_min_lb _ (B.legal_moves g) infinity noMove x hx) hle

/-- Lockstep of the alpha-beta and minimax max loops at a full window: with
`beta = +infinity` and `alpha` tracking the running score (as it does at the
root, which starts from `alpha = score = -infinity`), the loops return the
same value and the same move. -/
theorem ab_mm_loop_root (f_ab : Move → Val → Val) (f_mm : Move → Val)
    (h1 : ∀ m a, a < f_ab m a → f_ab m a ≤ f_mm m)
    (h2 : ∀ m a, f_ab m a < ⊤ → f_mm m ≤ f_ab m a) :
    ∀ (ms : List Move) (s : Val) (mv : Move), s < ⊤ →
      ab_loop_max f_ab ⊤ ms s mv s = mm_loop_max f_mm ms s mv := by
  intro ms
  induction ms with
  | nil => intro s mv hs; simp [ab_loop_max, mm_loop_max]
  | cons m ms ih =>
    intro s mv hs
    simp only [ab_loop_max, mm_loop_max]
    by_cases htop : f_ab m s < ⊤
    · have hmm_le : f_mm m ≤ f_ab m s := h2 m s htop
      by_cases hup : s < f_ab m s
      · have heq : f_mm m = f_ab m s := le_antisymm hmm_le (h1 m s hup)
        rw [heq]
        simp only [if_pos hup, if_neg (not_le_of_lt htop)]
        rw [max_eq_right (le_of_lt hup)]
        exact ih (f_ab m s) m htop
      · have hnm : ¬ s < f_mm m :=
          not_lt_of_le (le_trans hmm_le (le_of_not_lt hup))
        simp only [if_neg hup, if_neg hnm, if_neg (not_le_of_lt hs)]
        rw [max_self]
        exact ih s mv hs
    · have hvt : f_ab m s = ⊤ := top_le_iff.mp (le_of_not_lt htop)
      have hup : s < f_ab m s := hvt ▸ hs
      have hmt : f_mm m = ⊤ := top_le_iff.mp (hvt ▸ h1 m s hup)
      have hum : s < f_mm m := hmt ▸ hs
      simp only [if_pos hup, if_pos hum, hvt, hmt, if_pos (le_refl (⊤ : Val))]
      rw [mm_loop_max_top]
      simp only [if_pos hs, if_pos (le_refl (⊤ : Val))]

/-- Alpha-beta helper at the full default window equals the minimax helper,
value and move. -/
theorem alphabeta_max_eq_minimax_max (B : Board σ π) (score_fn : σ → π → Val)
    (player : π) (d : ℕ) (g : σ) :
    alphabeta_max_value B score_fn player g d ⊥ ⊤
      = minimax_max_value B score_fn player g d := by
  cases d with
  | zero => simp [alphabeta_max_value, minimax_max_value]
  | succ d =>
    by_cases hleaf : B.legal_moves g = []
    · simp [alphabeta_max_value, minimax_max_value, if_pos hleaf]
    · simp only [alphabeta_max_value, minimax_max_value, if_neg hleaf]
      exact ab_mm_loop_root _ _
        (fun m a ha =>
          (km_window B score_fn player d (B.forecast_move g m) a ⊤).2.2.1 ha)
        (fun m a hb =>
          (km_window B score_fn player d (B.forecast_move g m) a ⊤).2.2.2 hb)
        (B.legal_moves g) ⊥ noMove bot_lt_top

/-- Pure equivalence at the root: `alphabeta` with its default bounds returns
exactly the (value, move) pair of `minimax`, for every state and depth. -/
theorem alphabeta_eq_minimax (B : Board σ π) (score_fn : σ → π → Val)
    (g : σ) (d : ℕ) :
    alphabeta B score_fn g d = minimax B score_fn g d := by
  simp only [alphabeta, minimax]
  exact alphabeta_max_eq_minimax_max B score_fn (B.active_player g) d g

/-! ## Soundness and completeness of the timed loops -/

theorem mm_loop_maxT_sound (f : Move → ℕ → Option Val × ℕ) (g : Move → Val)
    (hf : ∀ m t v t', f m t = (some v, t') → v = g m) :
    ∀ (ms : List Move) (s : Val) (mv : Move) (t : ℕ) (p : Val × Move) (t' : ℕ),
      mm_loop_maxT f ms s mv t = (some p, t') → p = mm_loop_max g ms s mv := by
  intro ms
  induction ms with
  | nil =>
    intro s mv t p t' h
    simp only [mm_loop_maxT] at h
    injection h with h1 h2
    injection h1 with h1
    simp [mm_loop_max, ← h1]
  | cons m ms ih =>
    intro s mv t p t' h
    rw [mm_loop_maxT] at h
    rcases hfm : f m t with ⟨o, t₁⟩
    rw [hfm] at h
    cases o with
    | none => simp at h
    | some v =>
      simp only at h
      have hv : v = g m := hf m t v t₁ hfm
      subst hv
      rw [mm_loop_max]
      by_cases hc : s < g m
      · rw [if_pos hc] at h ⊢
        exact ih (g m) m t₁ p t' h
      · rw [if_neg hc] at h ⊢
        exact ih s mv t₁ p t' h

theorem mm_loop_minT_sound (f : Move → ℕ → Option Val × ℕ) (g : Move → Val)
    (hf : ∀ m t v t', f m t = (some v, t') → v = g m) :
    ∀ (ms : List Move) (s : Val) (mv : Move) (t : ℕ) (p : Val × Move) (t' : ℕ),
      mm_loop_minT f ms s mv t = (some p, t') → p = mm_loop_min g ms s mv := by
  intro ms
  induction ms with
  | nil =>
    intro s mv t p t' h
    simp only [mm_loop_minT] at h
    injection h with h1 h2
    injection h1 with h1
    simp [mm_loop_min, ← h1]
  | cons m ms ih =>
    intro s mv t p t' h
    rw [mm_loop_minT] at h
    rcases hfm : f m t with ⟨o, t₁⟩
    rw [hfm] at h
    cases o with
    | none => simp at h
    | some v =>
      simp only at h
      have hv : v = g m := hf m t v t₁ hfm
      subst hv
      rw [mm_loop_min]
      by_cases hc : g m < s
      · rw [if_pos hc] at h ⊢
        exact ih (g m) m t₁ p t' h
      · rw [if_neg hc] at h ⊢
        exact ih s mv t₁ p t' h

theorem ab_loop_maxT_sound (f : Move → Val → ℕ → Option Val × ℕ)
    (g : Move → Val → Val) (beta : Val)
    (hf : ∀ m a t v t', f m a t = (some v, t') → v = g m a) :
    ∀ (ms : List Move) (s : Val) (mv : Move) (a : Val) (t : ℕ)
      (p : Val × Move) (t' : ℕ),
      ab_loop_maxT f beta ms s mv a t = (some p, t') →
        p = ab_loop_max g beta ms s mv a := by
  intro ms
  induction ms with
  | nil =>
    intro s mv a t p t' h
    simp only [ab_loop_maxT] at h
    injection h with h1 h2
    injection h1 with h1
    simp [ab_loop_max, ← h1]
  | cons m ms ih =>
    intro s mv a t p t' h
    rw [ab_loop_maxT] at h
    rcases hfm : f m a t with ⟨o, t₁⟩
    rw [hfm] at h
    cases o with
    | none => simp at h
    | some v =>
      simp only at h
      have hv : v = g m a := hf m a t v t₁ hfm
      subst hv
      rw [ab_loop_max]
      by_cases hb : beta ≤ (if s < g m a then g m a else s)
      · rw [if_pos hb] at h ⊢
        injection h with h1 h2
        injection h1 with h1
        exact h1.symm
      · rw [if_neg hb] at h ⊢
        exact ih _ _ _ t₁ p t' h

theorem ab_loop_minT_sound (f : Move → Val → ℕ → Option Val × ℕ)
    (g : Move → Val → Val) (alpha : Val)
    (hf : ∀ m b t v t', f m b t = (some v, t') → v = g m b) :
    ∀ (ms : List Move) (s : Val) (mv : Move) (b : Val) (t : ℕ)
      (p : Val × Move) (t' : ℕ),
      ab_loop_minT f alpha ms s mv b t = (some p, t') →
        p = ab_loop_min g alpha ms s mv b := by
  intro ms
  induction ms with
  | nil =>
    intro s mv b t p t' h
    simp only [ab_loop_minT] at h
    injection h with h1 h2
    injection h1 with h1
    simp [ab_loop_min, ← h1]
  | cons m ms ih =>
    intro s mv b t p t' h
    rw [ab_loop_minT] at h
    rcases hfm : f m b t with ⟨o, t₁⟩
    rw [hfm] at h
    cases o with
    | none => simp at h
    | some v =>
      simp only at h
      have hv : v = g m b := hf m b t v t₁ hfm
      subst hv
      rw [ab_loop_min]
      by_cases ha : (if g m b < s then g m b else s) ≤ alpha
      · rw [if_pos ha] at h ⊢
        injection h with h1 h2
        injection h1 with h1
        exact h1.symm
      · rw [if_neg ha] at h ⊢
        exact ih _ _ _ t₁ p t' h

theorem mm_loop_maxT_complete (f : Move → ℕ → Option Val × ℕ) (g : Move → Val)
    (hf : ∀ m t, ∃ t', f m t = (some (g m), t')) :
    ∀ (ms : List Move) (s : Val) (mv : Move) (t : ℕ),
      ∃ t', mm_loop_maxT f ms s mv t = (some (mm_loop_max g ms s mv), t') := by
  intro ms
  induction ms with
  | nil => intro s mv t; exact ⟨t, by simp [mm_loop_maxT, mm_loop_max]⟩
  | cons m ms ih =>
    intro s mv t
    obtain ⟨t₁, ht₁⟩ := hf m t
    rw [mm_loop_maxT, ht₁, mm_loop_max]
    simp only
    by_cases hc : s < g m
    · rw [if_pos hc, if_pos hc]
      exact ih (g m) m t₁
    · rw [if_neg hc, if_neg hc]
      exact ih s mv t₁

theorem mm_loop_minT_complete (f : Move → ℕ → Option Val × ℕ) (g : Move → Val)
    (hf : ∀ m t, ∃ t', f m t = (some (g m), t')) :
    ∀ (ms : List Move) (s : Val) (mv : Move) (t : ℕ),
      ∃ t', mm_loop_minT f ms s mv t = (some (mm_loop_min g ms s mv), t') := by
  intro ms
  induction ms with
  | nil => intro s mv t; exact ⟨t, by simp [mm_loop_minT, mm_loop_min]⟩
  | cons m ms ih =>
    intro s mv t
    obtain ⟨t₁, ht₁⟩ := hf m t
    rw [mm_loop_minT, ht₁, mm_loop_min]
    simp only
    by_cases hc : g m < s
    · rw [if_pos hc, if_pos hc]
      exact ih (g m) m t₁
    · rw [if_neg hc, if_neg hc]
      exact ih s mv t₁

theorem ab_loop_maxT_complete (f : Move → Val → ℕ → Option Val × ℕ)
    (g : Move → Val → Val) (beta : Val)
    (hf : ∀ m a t, ∃ t', f m a t = (some (g m a), t')) :
    ∀ (ms : List Move) (s : Val) (mv : Move) (a : Val) (t : ℕ),
      ∃ t', ab_loop_maxT f beta ms s mv a t
        = (some (ab_loop_max g beta ms s mv a), t') := by
  intro ms
  induction ms with
  | nil => intro s mv a t; exact ⟨t, by simp [ab_loop_maxT, ab_loop_max]⟩
  | cons m ms ih =>
    intro s mv a t
    obtain ⟨t₁, ht₁⟩ := hf m a t
    rw [ab_loop_maxT, ht₁, ab_loop_max]
    simp only
    by_cases hb : beta ≤ (if s < g m a then g m a else s)
    · rw [if_pos hb, if_pos hb]
      exact ⟨t₁, rfl⟩
    · rw [if_neg hb, if_neg hb]
      exact ih _ _ _ t₁

theorem ab_loop_minT_complete (f : Move → Val → ℕ → Option Val × ℕ)
    (g : Move → Val → Val) (alpha : Val)
    (hf : ∀ m b t, ∃ t', f m b t = (some (g m b), t')) :
    ∀ (ms : List Move) (s : Val) (mv : Move) (b : Val) (t : ℕ),
      ∃ t', ab_loop_minT f alpha ms s mv b t
        = (some (ab_loop_min g alpha ms s mv b), t') := by
  intro ms
  induction ms with
  | nil => intro s mv b t; exact ⟨t, by simp [ab_loop_minT, ab_loop_min]⟩
  | cons m ms ih =>
    intro s mv b t
    obtain ⟨t₁, ht₁⟩ := hf m b t
    rw [ab_loop_minT, ht₁, ab_loop_min]
    simp only
    by_cases ha : (if g m b < s then g m b else s) ≤ alpha
    · rw [if_pos ha, if_pos ha]
      exact ⟨t₁, rfl⟩
    · rw [if_neg ha, if_neg ha]
      exact ih _ _ _ t₁

/-- Soundness of the timed minimax helpers: whenever a timed call returns a
result (no `Timeout` was raised anywhere inside), that result is exactly the
pure minimax result. -/
theorem minimax_valueT_sound (B : Board σ π) (score_fn : σ → π → Val)
    (clock : ℕ → ℚ) (thr : ℚ) (player : π) :
    ∀ (d : ℕ) (g : σ) (t : ℕ) (p : Val × Move) (t' : ℕ),
      (minimax_max_valueT B score_fn clock thr player g d t = (some p, t') →
        p = minimax_max_value B score_fn player g d) ∧
      (minimax_min_valueT B score_fn clock thr player g d t = (some p, t') →
        p = minimax_min_value B score_fn player g d) := by
  intro d
  induction d with
  | zero =>
    intro g t p t'
    constructor
    · intro h
      simp only [minimax_max_valueT] at h
      by_cases hck : clock t < thr
      · rw [if_pos hck] at h; exact absurd h (by simp)
      · rw [if_neg hck] at h
        injection h with h1 h2
        injection h1 with h1
        rw [minimax_max_value, ← h1]
    · intro h
      simp only [minimax_min_valueT] at h
      by_cases hck : clock t < thr
      · rw [if_pos hck] at h; exact absurd h (by simp)
      · rw [if_neg hck] at h
        injection h with h1 h2
        injection h1 with h1
        rw [minimax_min_value, ← h1]
  | succ d ih =>
    intro g t p t'
    constructor
    · intro h
      simp only [minimax_max_valueT] at h
      by_cases hck : clock t < thr
      · rw [if_pos hck] at h; exact absurd h (by simp)
      · rw [if_neg hck] at h
        by_cases hleaf : B.legal_moves g = []
        · rw [if_pos hleaf] at h
          injection h with h1 h2
          injection h1 with h1
          rw [minimax_max_value, if_pos hleaf, ← h1]
        · rw [if_neg hleaf] at h
          rw [minimax_max_value, if_neg hleaf]
          refine mm_loop_maxT_sound _
            (fun m => (minimax_min_value B score_fn player (B.forecast_move g m) d).1)
            ?_ (B.legal_moves g) ⊥ noMove (t + 1) p t' h
          intro m u v u' hmu
          rcases hq : minimax_min_valueT B score_fn clock thr player
              (B.forecast_move g m) d u with ⟨o, u₁⟩
          simp only [fstT, hq] at hmu
          cases o with
          | none => simp at hmu
          | some q =>
            simp only [Option.map] at hmu
            injection hmu with h1 h2
            injection h1 with h1
            have hqe := (ih (B.forecast_move g m) u q u₁).2 hq
            rw [← h1, hqe]
    · intro h
      simp only [minimax_min_valueT] at h
      by_cases hck : clock t < thr
      · rw [if_pos hck] at h; exact absurd h (by simp)
      · rw [if_neg hck] at h
        by_cases hleaf : B.legal_moves g = []
        · rw [if_pos hleaf] at h
          injection h with h1 h2
          injection h1 with h1
          rw [minimax_min_value, if_pos hleaf, ← h1]
        · rw [if_neg hleaf] at h
          rw [minimax_min_value, if_neg hleaf]
          refine mm_loop_minT_sound _
            (fun m => (minimax_max_value B score_fn player (B.forecast_move g m) d).1)
            ?_ (B.legal_moves g) infinity noMove (t + 1) p t' h
          intro m u v u' hmu
          rcases hq : minimax_max_valueT B score_fn clock thr player
              (B.forecast_move g m) d u with ⟨o, u₁⟩
          simp only [fstT, hq] at hmu
          cases o with
          | none => simp at hmu
          | some q =>
            simp only [Option.map] at hmu
            injection hmu with h1 h2
            injection h1 with h1
            have hqe := (ih (B.forecast_move g m) u q u₁).1 hq
            rw [← h1, hqe]

/-- Soundness of the timed alphabeta helpers. -/
theorem alphabeta_valueT_sound (B : Board σ π) (score_fn : σ → π → Val)
    (clock : ℕ → ℚ) (thr : ℚ) (player : π) :
    ∀ (d : ℕ) (g : σ) (a b : Val) (t : ℕ) (p : Val × Move) (t' : ℕ),
      (alphabeta_max_valueT B score_fn clock thr player g d a b t = (some p, t') →
        p = alphabeta_max_value B score_fn player g d a b) ∧
      (alphabeta_min_valueT B score_fn clock thr player g d a b t = (some p, t') →
        p = alphabeta_min_value B score_fn player g d a b) := by
  intro d
  induction d with
  | zero =>
    intro g a b t p t'
    constructor
    · intro h
      simp only [alphabeta_max_valueT] at h
      by_cases hck : clock t < thr
      · rw [if_pos hck] at h; exact absurd h (by simp)
      · rw [if_neg hck] at h
        injection h with h1 h2
        injection h1 with h1
        rw [alphabeta_max_value, ← h1]
    · intro h
      simp only [alphabeta_min_valueT] at h
      by_cases hck : clock t < thr
      · rw [if_pos hck] at h; exact absurd h (by simp)
      · rw [if_neg hck] at h
        injection h with h1 h2
        injection h1 with h1
        rw [alphabeta_min_value, ← h1]
  | succ d ih =>
    intro g a b t p t'
    constructor
    · intro h
      simp only [alphabeta_max_valueT] at h
      by_cases hck : clock t < thr
      · rw [if_pos hck] at h; exact absurd h (by simp)
      · rw [if_neg hck] at h
        by_cases hleaf : B.legal_moves g = []
        · rw [if_pos hleaf] at h
          injection h with h1 h2
          injection h1 with h1
          rw [alphabeta_max_value, if_pos hleaf, ← h1]
        · rw [if_neg hleaf] at h
          rw [alphabeta_max_value, if_neg hleaf]
          refine ab_loop_maxT_sound _
            (fun m a' => (alphabeta_min_value B score_fn player
              (B.forecast_move g m) d a' b).1) b
            ?_ (B.legal_moves g) ⊥ noMove a (t + 1) p t' h
          intro m a' u v u' hmu
          rcases hq : alphabeta_min_valueT B score_fn clock thr player
              (B.forecast_move g m) d a' b u with ⟨o, u₁⟩
          simp only [fstT, hq] at hmu
          cases o with
          | none => simp at hmu
          | some q =>
            simp only [Option.map] at hmu
            injection hmu with h1 h2
            injection h1 with h1
            have hqe := (ih (B.forecast_move g m) a' b u q u₁).2 hq
            rw [← h1, hqe]
    · intro h
      simp only [alphabeta_min_valueT] at h
      by_cases hck : clock t < thr
      · rw [if_pos hck] at h; exact absurd h (by simp)
      · rw [if_neg hck] at h
        by_cases hleaf : B.legal_moves g = []
        · rw [if_pos hleaf] at h
          injection h with h1 h2
          injection h1 with h1
          rw [alphabeta_min_value, if_pos hleaf, ← h1]
        · rw [if_neg hleaf] at h
          rw [alphabeta_min_value, if_neg hleaf]
          refine ab_loop_minT_sound _
            (fun m b' => (alphabeta_max_value B score_fn player
              (B.forecast_move g m) d a b').1) a
            ?_ (B.legal_moves g) infinity noMove b (t + 1) p t' h
          intro m b' u v u' hmu
          rcases hq : alphabeta_max_valueT B score_fn clock thr player
              (B.forecast_move g m) d a b' u with ⟨o, u₁⟩
          simp only [fstT, hq] at hmu
          cases o with
          | none => simp at hmu
          | some q =>
            simp only [Option.map] at hmu
            injection hmu with h1 h2
            injection h1 with h1
            have hqe := (ih (B.forecast_move g m) a b' u q u₁).1 hq
            rw [← h1, hqe]

/-- Soundness of the timed root `minimax`. -/
theorem minimaxT_sound (B : Board σ π) (score_fn : σ → π → Val)
    (clock : ℕ → ℚ) (thr : ℚ) (g : σ) (d : ℕ) (t : ℕ) (p : Val × Move) (t' : ℕ)
    (h : minimaxT B score_fn clock thr g d t = (some p, t')) :
    p = minimax B score_fn g d := by
  simp only [minimaxT] at h
  by_cases hck : clock t < thr
  · rw [if_pos hck] at h; exact absurd h (by simp)
  · rw [if_neg hck] at h
    exact (minimax_valueT_sound B score_fn clock thr (B.active_player g) d g
      (t + 1) p t').1 h

/-- Soundness of the timed root `alphabeta`. -/
theorem alphabetaT_sound (B : Board σ π) (score_fn : σ → π → Val)
    (clock : ℕ → ℚ) (thr : ℚ) (g : σ) (d : ℕ) (a b : Val) (t : ℕ)
    (p : Val × Move) (t' : ℕ)
    (h : alphabetaT B score_fn clock thr g d a b t = (some p, t')) :
    p = alphabeta B score_fn g d a b := by
  simp only [alphabetaT] at h
  by_cases hck : clock t < thr
  · rw [if_pos hck] at h; exact absurd h (by simp)
  · rw [if_neg hck] at h
    exact (alphabeta_valueT_sound B score_fn clock thr (B.active_player g) d g
      a b (t + 1) p t').1 h

/-- Completeness of the timed minimax helpers: if the clock never reports a
value below the threshold, no `Timeout` is raised and the timed search
returns the pure minimax result. -/
theorem minimax_valueT_complete (B : Board σ π) (score_fn : σ → π → Val)
    (clock : ℕ → ℚ) (thr : ℚ) (player : π) (hc : ∀ u, ¬ clock u < thr) :
    ∀ (d : ℕ) (g : σ) (t : ℕ),
      (∃ t', minimax_max_valueT B score_fn clock thr player g d t
        = (some (minimax_max_value B score_fn player g d), t')) ∧
      (∃ t', minimax_min_valueT B score_fn clock thr player g d t
        = (some (minimax_min_value B score_fn player g d), t')) := by
  intro d
  induction d with
  | zero =>
    intro g t
    constructor
    · exact ⟨t + 1, by simp only [minimax_max_valueT, minimax_max_value,
        if_neg (hc t)]⟩
    · exact ⟨t + 1, by simp only [minimax_min_valueT, minimax_min_value,
        if_neg (hc t)]⟩
  | succ d ih =>
    intro g t
    constructor
    · by_cases hleaf : B.legal_moves g = []
      · exact ⟨t + 1, by simp only [minimax_max_valueT, minimax_max_value,
          if_neg (hc t), if_pos hleaf]⟩
      · simp only [minimax_max_valueT, minimax_max_value, if_neg (hc t),
          if_neg hleaf]
        refine mm_loop_maxT_complete _
          (fun m => (minimax_min_value B score_fn player (B.forecast_move g m) d).1)
          ?_ (B.legal_moves g) ⊥ noMove (t + 1)
        intro m u
        obtain ⟨u', hu⟩ := (ih (B.forecast_move g m) u).2
        exact ⟨u', by simp [fstT, hu]⟩
    · by_cases hleaf : B.legal_moves g = []
      · exact ⟨t + 1, by simp only [minimax_min_valueT, minimax_min_value,
          if_neg (hc t), if_pos hleaf]⟩
      · simp only [minimax_min_valueT, minimax_min_value, if_neg (hc t),
          if_neg hleaf]
        refine mm_loop_minT_complete _
          (fun m => (minimax_max_value B score_fn player (B.forecast_move g m) d).1)
          ?_ (B.legal_moves g) infinity noMove (t + 1)
        intro m u
        obtain ⟨u', hu⟩ := (ih (B.forecast_move g m) u).1
        exact ⟨u', by simp [fstT, hu]⟩

/-- Completeness of the timed alphabeta helpers. -/
theorem alphabeta_valueT_complete (B : Board σ π) (score_fn : σ → π → Val)
    (clock : ℕ → ℚ) (thr : ℚ) (player : π) (hc : ∀ u, ¬ clock u < thr) :
    ∀ (d : ℕ) (g : σ) (a b : Val) (t : ℕ),
      (∃ t', alphabeta_max_valueT B score_fn clock thr player g d a b t
        = (some (alphabeta_max_value B score_fn player g d a b), t')) ∧
      (∃ t', alphabeta_min_valueT B score_fn clock thr player g d a b t
        = (some (alphabeta_min_value B score_fn player g d a b), t')) := by
  intro d
  induction d with
  | zero =>
    intro g a b t
    constructor
    · exact ⟨t + 1, by simp only [alphabeta_max_valueT, alphabeta_max_value,
        if_neg (hc t)]⟩
    · exact ⟨t + 1, by simp only [alphabeta_min_valueT, alphabeta_min_value,
        if_neg (hc t)]⟩
  | succ d ih =>
    intro g a b t
    constructor
    · by_cases hleaf : B.legal_moves g = []
      · exact ⟨t + 1, by simp only [alphabeta_max_valueT, alphabeta_max_value,
          if_neg (hc t), if_pos hleaf]⟩
      · simp only [alphabeta_max_valueT, alphabeta_max_value, if_neg (hc t),
          if_neg hleaf]
        refine ab_loop_maxT_complete _
          (fun m a' => (alphabeta_min_value B score_fn player
            (B.forecast_move g m) d a' b).1) b
          ?_ (B.legal_moves g) ⊥ noMove a (t + 1)
        intro m a' u
        obtain ⟨u', hu⟩ := (ih (B.forecast_move g m) a' b u).2
        exact ⟨u', by simp [fstT, hu]⟩
    · by_cases hleaf : B.legal_moves g = []
      · exact ⟨t + 1, by simp only [alphabeta_min_valueT, alphabeta_min_value,
          if_neg (hc t), if_pos hleaf]⟩
      · simp only [alphabeta_min_valueT, alphabeta_min_value, if_neg (hc t),
          if_neg hleaf]
        refine ab_loop_minT_complete _
          (fun m b' => (alphabeta_max_value B score_fn player
            (B.forecast_move g m) d a b').1) a
          ?_ (B.legal_moves g) infinity noMove b (t + 1)
        intro m b' u
        obtain ⟨u', hu⟩ := (ih (B.forecast_move g m) a b' u).1
        exact ⟨u', by simp [fstT, hu]⟩

/-- Completeness of the timed root `minimax`. -/
theorem minimaxT_complete (B : Board σ π) (score_fn : σ → π → Val)
    (clock : ℕ → ℚ) (thr : ℚ) (hc : ∀ u, ¬ clock u < thr) (g : σ) (d : ℕ)
    (t : ℕ) :
    ∃ t', minimaxT B score_fn clock thr g d t
      = (some (minimax B score_fn g d), t') := by
  simp only [minimaxT, minimax, if_neg (hc t)]
  exact (minimax_valueT_complete B score_fn clock thr (B.active_player g) hc d g
    (t + 1)).1

/-- Completeness of the timed root `alphabeta`. -/
theorem alphabetaT_complete (B : Board σ π) (score_fn : σ → π → Val)
    (clock : ℕ → ℚ) (thr : ℚ) (hc : ∀ u, ¬ clock u < thr) (g : σ) (d : ℕ)
    (a b : Val) (t : ℕ) :
    ∃ t', alphabetaT B score_fn clock thr g d a b t
      = (some (alphabeta B score_fn g d a b), t') := by
  simp only [alphabetaT, alphabeta, if_neg (hc t)]
  exact (alphabeta_valueT_complete B score_fn clock thr (B.active_player g) hc d g
    a b (t + 1)).1

/-! ## Congruence in the score function -/

theorem mm_loop_max_congr (f f' : Move → Val) (h : ∀ m, f m = f' m) :
    ∀ (ms : List Move) (s : Val) (mv : Move),
      mm_loop_max f ms s mv = mm_loop_max f' ms s mv := by
  intro ms
  induction ms with
  | nil => intro s mv; simp [mm_loop_max]
  | cons m ms ih =>
    intro s mv
    simp only [mm_loop_max, h m]
    split_ifs with hc
    · exact ih (f' m) m
    · exact ih s mv

theorem mm_loop_min_congr (f f' : Move → Val) (h : ∀ m, f m = f' m) :
    ∀ (ms : List Move) (s : Val) (mv : Move),
      mm_loop_min f ms s mv = mm_loop_min f' ms s mv := by
  intro ms
  induction ms with
  | nil => intro s mv; simp [mm_loop_min]
  | cons m ms ih =>
    intro s mv
    simp only [mm_loop_min, h m]
    split_ifs with hc
    · exact ih (f' m) m
    · exact ih s mv

theorem ab_loop_max_congr (f f' : Move → Val → Val) (beta : Val)
    (h : ∀ m a, f m a = f' m a) :
    ∀ (ms : List Move) (s : Val) (mv : Move) (a : Val),
      ab_loop_max f beta ms s mv a = ab_loop_max f' beta ms s mv a := by
  intro ms
  induction ms with
  | nil => intro s mv a; simp [ab_loop_max]
  | cons m ms ih =>
    intro s mv a
    simp only [ab_loop_max, h m a]
    split_ifs with hc hb hb
    · rfl
    · exact ih (f' m a) m (max a (f' m a))
    · rfl
    · exact ih s mv (max a s)

theorem ab_loop_min_congr (f f' : Move → Val → Val) (alpha : Val)
    (h : ∀ m b, f m b = f' m b) :
    ∀ (ms : List Move) (s : Val) (mv : Move) (b : Val),
      ab_loop_min f alpha ms s mv b = ab_loop_min f' alpha ms s mv b := by
  intro ms
  induction ms with
  | nil => intro s mv b; simp [ab_loop_min]
  | cons m ms ih =>
    intro s mv b
    simp only [ab_loop_min, h m b]
    split_ifs with hc ha ha
    · rfl
    · exact ih (f' m b) m (min b (f' m b))
    · rfl
    · exact ih s mv (min b s)

/-- The minimax helpers evaluate the score function only at the fixed
perspective `player`: two score functions that agree for `player` (on every
state) produce identical searches, whatever they return for other players. -/
theorem minimax_value_congr (B : Board σ π) (f1 f2 : σ → π → Val) (player : π)
    (h : ∀ s, f1 s player = f2 s player) :
    ∀ (d : ℕ) (g : σ),
      minimax_max_value B f1 player g d = minimax_max_value B f2 player g d ∧
      minimax_min_value B f1 player g d = minimax_min_value B f2 player g d := by
  intro d
  induction d with
  | zero =>
    intro g
    constructor
    · simp only [minimax_max_value, h g]
    · simp only [minimax_min_value, h g]
  | succ d ih =>
    intro g
    constructor
    · simp only [minimax_max_value]
      by_cases hleaf : B.legal_moves g = []
      · rw [if_pos hleaf, if_pos hleaf, h g]
      · rw [if_neg hleaf, if_neg hleaf]
        exact mm_loop_max_congr _ _
          (fun m => by rw [(ih (B.forecast_move g m)).2]) _ _ _
    · simp only [minimax_min_value]
      by_cases hleaf : B.legal_moves g = []
      · rw [if_pos hleaf, if_pos hleaf, h g]
      · rw [if_neg hleaf, if_neg hleaf]
        exact mm_loop_min_congr _ _
          (fun m => by rw [(ih (B.forecast_move g m)).1]) _ _ _

/-- The alphabeta helpers likewise evaluate the score function only at the
fixed perspective `player`. -/
theorem alphabeta_value_congr (B : Board σ π) (f1 f2 : σ → π → Val) (player : π)
    (h : ∀ s, f1 s player = f2 s player) :
    ∀ (d : ℕ) (g : σ) (a b : Val),
      alphabeta_max_value B f1 player g d a b
        = alphabeta_max_value B f2 player g d a b ∧
      alphabeta_min_value B f1 player g d a b
        = alphabeta_min_value B f2 player g d a b := by
  intro d
  induction d with
  | zero =>
    intro g a b
    constructor
    · simp only [alphabeta_max_value, h g]
    · simp only [alphabeta_min_value, h g]
  | succ d ih =>
    intro g a b
    constructor
    · simp only [alphabeta_max_value]
      by_cases hleaf : B.legal_moves g = []
      · rw [if_pos hleaf, if_pos hleaf, h g]
      · rw [if_neg hleaf, if_neg hleaf]
        exact ab_loop_max_congr _ _ b
          (fun m a' => by rw [(ih (B.forecast_move g m) a' b).2]) _ _ _ _
    · simp only [alphabeta_min_value]
      by_cases hleaf : B.legal_moves g = []
      · rw [if_pos hleaf, if_pos hleaf, h g]
      · rw [if_neg hleaf, if_neg hleaf]
        exact ab_loop_min_congr _ _ a
          (fun m b' => by rw [(ih (B.forecast_move g m) a b').1]) _ _ _ _

/-! ## Facts about finite score values -/

theorem finV_ne_bot (q : ℚ) : finV q ≠ ⊥ := by simp [finV]

theorem finV_ne_top (q : ℚ) : finV q ≠ ⊤ := by
  simp only [finV, ne_eq]
  intro h
  rw [show ((⊤ : Val) = ((⊤ : WithTop ℚ) : Val)) from rfl] at h
  exact WithTop.coe_ne_top (WithBot.coe_inj.mp h)

/-! ## Concrete instances used by the witnesses and counterexamples -/

/-- A one-state board with a single legal move, used to exercise the driver. -/
def boardOne : Board Unit Unit :=
  { get_legal_moves := fun _ _ => [(0, 0)]
  , forecast_move := fun g _ => g
  , active_player := fun _ => ()
  , get_opponent := fun _ p => p
  , is_loser := fun _ _ => false
  , is_winner := fun _ _ => false }

/-- A two-move game tree over natural-number states with distinct leaf
values: state 0 has moves (0,0) and (0,1) leading to states 1 and 2, which
are terminal. -/
def boardTwo : Board ℕ Unit :=
  { get_legal_moves := fun n _ => if n = 0 then [(0, 0), (0, 1)] else []
  , forecast_move := fun n m => if m = (0, 0) then 1 else 2
  , active_player := fun _ => ()
  , get_opponent := fun _ p => p
  , is_loser := fun _ _ => false
  , is_winner := fun _ _ => false }

/-- A board on which the active player has two legal moves but every
successor evaluates to -infinity. -/
def boardTie : Board Unit Unit :=
  { get_legal_moves := fun _ _ => [(0, 0), (1, 1)]
  , forecast_move := fun g _ => g
  , active_player := fun _ => ()
  , get_opponent := fun _ p => p
  , is_loser := fun _ _ => false
  , is_winner := fun _ _ => false }

/-- A board state whose player is neither flagged a loser nor a winner but
has no legal moves — in the real game, an inactive player who is currently
blocked while the active opponent still has moves. -/
def boardBlocked : Board Unit Unit :=
  { get_legal_moves := fun _ _ => []
  , forecast_move := fun g _ => g
  , active_player := fun _ => ()
  , get_opponent := fun _ p => p
  , is_loser := fun _ _ => false
  , is_winner := fun _ _ => false }

/-- A two-player variant of `boardTwo` whose active player is always the
Boolean player `true`. -/
def boardNat : Board ℕ Bool :=
  { get_legal_moves := fun n _ => if n = 0 then [(0, 0), (0, 1)] else []
  , forecast_move := fun n m => if m = (0, 0) then 1 else 2
  , active_player := fun _ => true
  , get_opponent := fun _ p => !p
  , is_loser := fun _ _ => false
  , is_winner := fun _ _ => false }

/-- An iterative-deepening minimax player with a 10 ms margin. -/
def playerIter : CustomPlayer Unit Unit :=
  { search_depth := 3
  , score := fun _ _ => finV 0
  , iterative := true
  , method := "minimax"
  , TIMER_THRESHOLD := 10 }

/-- A clock that allows exactly two queries before expiring: the depth-0
iteration completes, the depth-1 search then times out at its root check. -/
def clockTwoQueries : ℕ → ℚ := fun t => if t < 2 then 100 else 0

/-! ## The claims -/

/-- C1: for every game state and every depth at which both searches complete
without a timeout being raised (whatever the clocks, thresholds and query
offsets of the two runs), alphabeta with default bounds alpha = -infinity,
beta = +infinity returns exactly the same value and the same move as
minimax. -/
theorem C1_alphabeta_equals_minimax (B : Board σ π) (score_fn : σ → π → Val)
    (g : σ) (d : ℕ) (clock1 clock2 : ℕ → ℚ) (thr1 thr2 : ℚ) (t1 t2 : ℕ)
    (p q : Val × Move) (t1' t2' : ℕ)
    (h1 : minimaxT B score_fn clock1 thr1 g d t1 = (some p, t1'))
    (h2 : alphabetaT B score_fn clock2 thr2 g d ⊥ ⊤ t2 = (some q, t2')) :
    q = p := by
  rw [alphabetaT_sound B score_fn clock2 thr2 g d ⊥ ⊤ t2 q t2' h2,
    minimaxT_sound B score_fn clock1 thr1 g d t1 p t1' h1]
  exact alphabeta_eq_minimax B score_fn g d

theorem C1_witness :
    minimaxT boardTwo (fun n _ => finV n) (fun _ => 100) 10 0 1 0
      = (some (finV 2, (0, 1)), 4) ∧
    alphabetaT boardTwo (fun n _ => finV n) (fun _ => 100) 10 0 1 ⊥ ⊤ 0
      = (some (finV 2, (0, 1)), 4) ∧
    ((finV 2, ((0 : Int), (1 : Int))) : Val × Move) = (finV 2, (0, 1)) :=
  ⟨by decide, by decide,
    C1_alphabeta_equals_minimax boardTwo (fun n _ => finV n) 0 1
      (fun _ => 100) (fun _ => 100) 10 10 0 0 (finV 2, (0, 1)) (finV 2, (0, 1))
      4 4 (by decide) (by decide)⟩

/-- C4: with a clock that never drops below the threshold, minimax at depth 0
returns the score of the entry state for its active player, paired with the
NO_MOVE sentinel, after exactly two clock queries. -/
theorem C4_depth_zero (B : Board σ π) (score_fn : σ → π → Val)
    (clock : ℕ → ℚ) (thr : ℚ) (hc : ∀ u, ¬ clock u < thr) (g : σ) (t : ℕ) :
    minimaxT B score_fn clock thr g 0 t
      = (some (score_fn g (B.active_player g), noMove), t + 2) := by
  simp only [minimaxT, minimax_max_valueT, if_neg (hc t), if_neg (hc (t + 1))]

theorem C4_witness :
    (∀ u : ℕ, ¬ ((fun _ : ℕ => (100 : ℚ)) u < 10)) ∧
    minimaxT boardTwo (fun n _ => finV n) (fun _ => 100) 10 0 0 5
      = (some (finV 0, noMove), 7) :=
  ⟨fun u => by norm_num,
    C4_depth_zero boardTwo (fun n _ => finV n) (fun _ => 100) 10
      (fun u => by norm_num) 0 5⟩

/-- C7: at the root of minimax and alphabeta and at the entry of each of the
four recursive helpers, if the clock reports a value strictly below the
threshold, the call yields no result at all (the Timeout unwinds with no
partial pair), having consumed exactly that one query. -/
theorem C7_timeout_on_entry (B : Board σ π) (score_fn : σ → π → Val)
    (clock : ℕ → ℚ) (thr : ℚ) (player : π) (g : σ) (d : ℕ) (a b : Val)
    (t : ℕ) (h : clock t < thr) :
    minimax_max_valueT B score_fn clock thr player g d t = (none, t + 1) ∧
    minimax_min_valueT B score_fn clock thr player g d t = (none, t + 1) ∧
    alphabeta_max_valueT B score_fn clock thr player g d a b t = (none, t + 1) ∧
    alphabeta_min_valueT B score_fn clock thr player g d a b t = (none, t + 1) ∧
    minimaxT B score_fn clock thr g d t = (none, t + 1) ∧
    alphabetaT B score_fn clock thr g d a b t = (none, t + 1) := by
  refine ⟨?_, ?_, ?_, ?_, ?_, ?_⟩
  · rw [minimax_max_valueT.eq_def, if_pos h]
  · rw [minimax_min_valueT.eq_def, if_pos h]
  · rw [alphabeta_max_valueT.eq_def, if_pos h]
  · rw [alphabeta_min_valueT.eq_def, if_pos h]
  · rw [minimaxT]; rw [if_pos h]
  · rw [alphabetaT, if_pos h]

theorem C7_witness :
    ((fun _ : ℕ => (0 : ℚ)) 0 < 10) ∧
    (minimax_max_valueT boardOne (fun _ _ => finV 0) (fun _ => 0) 10 () () 2 0
       = (none, 1) ∧
     minimax_min_valueT boardOne (fun _ _ => finV 0) (fun _ => 0) 10 () () 2 0
       = (none, 1) ∧
     alphabeta_max_valueT boardOne (fun _ _ => finV 0) (fun _ => 0) 10 () () 2
       ⊥ ⊤ 0 = (none, 1) ∧
     alphabeta_min_valueT boardOne (fun _ _ => finV 0) (fun _ => 0) 10 () () 2
       ⊥ ⊤ 0 = (none, 1) ∧
     minimaxT boardOne (fun _ _ => finV 0) (fun _ => 0) 10 () 2 0 = (none, 1) ∧
     alphabetaT boardOne (fun _ _ => finV 0) (fun _ => 0) 10 () 2 ⊥ ⊤ 0
       = (none, 1)) :=
  ⟨by norm_num,
    C7_timeout_on_entry boardOne (fun _ _ => finV 0) (fun _ => 0) 10 () () 2
      ⊥ ⊤ 0 (by norm_num)⟩

/-- C9: get_move with an empty legal_moves list returns the sentinel (-1,-1)
immediately: for every player configuration (even an invalid method), every
clock and every fuel, the result is a normal return of (-1,-1) with zero
clock queries made — so no timer check happened and no search was entered. -/
theorem C9_empty_moves (P : CustomPlayer σ π) (B : Board σ π) (g : σ)
    (clock : ℕ → ℚ) (fuel : ℕ) :
    get_move P B g [] clock fuel = some (.returns noMove 0) := rfl

/-- C2 (evaluation at the failing input): with the single legal move (0,0),
an iterative-deepening player and a clock that lets the depth-0 iteration
finish before expiring, get_move returns the NO_MOVE sentinel (-1,-1) — the
depth-0 search returned (score, (-1,-1)) and overwrote the fallback before
the timeout hit, so the driver hands the caller a non-legal move. -/
theorem C2_failing_input :
    get_move playerIter boardOne () [(0, 0)] clockTwoQueries 2
      = some (.returns (-1, -1) 3) ∧
    ((-1, -1) : Move) ∉ [((0, 0) : Move)] := by
  constructor
  · decide
  · decide

/-- C3: with any non-empty legal_moves list (of genuine board moves), a
recognized search method, and a clock already below the threshold at every
query, get_move returns legal_moves[0] after a single clock query: the first
search iteration raises Timeout at its root check, the driver catches it and
falls back — no exception reaches the caller and the sentinel is not
returned. -/
theorem C3_expired_clock (P : CustomPlayer σ π) (B : Board σ π) (g : σ)
    (m0 : Move) (rest : List Move) (clock : ℕ → ℚ)
    (hmethod : P.method = "minimax" ∨ P.method = "alphabeta")
    (hclk : ∀ u, clock u < P.TIMER_THRESHOLD)
    (hm0 : m0 ≠ noMove) (fuel : ℕ) :
    get_move P B g (m0 :: rest) clock (fuel + 1)
      = some (.returns m0 1) := by
  have hrs : run_search P B clock g (if P.iterative then 0 else P.search_depth) 0
      = (none, 1) := by
    rcases hmethod with hm | hm
    · rw [run_search, if_pos hm, minimaxT, if_pos (hclk 0)]
    · have hne : ¬ P.method = "minimax" := by rw [hm]; decide
      rw [run_search, if_neg hne, alphabetaT, if_pos (hclk 0)]
  have hcond : P.iterative = true ∨
      ((if P.iterative then 0 else P.search_depth) ≤ P.search_depth ∧
        m0 ≠ noMove) := by
    cases hit : P.iterative with
    | true => exact Or.inl rfl
    | false =>
      right
      exact ⟨by simp [hit], hm0⟩
  rw [get_move, if_pos hmethod, get_move_loop, if_pos hcond, hrs]

theorem C3_witness :
    (("alphabeta" : String) = "minimax" ∨ ("alphabeta" : String) = "alphabeta") ∧
    (∀ u : ℕ, (fun _ : ℕ => (0 : ℚ)) u < (10 : ℚ)) ∧
    (((2, 3) : Move) ≠ noMove) ∧
    get_move { search_depth := 3, score := fun _ _ => finV 0, iterative := false,
               method := "alphabeta", TIMER_THRESHOLD := 10 }
      boardOne () [(2, 3), (4, 5)] (fun _ => 0) 6
      = some (.returns (2, 3) 1) :=
  ⟨Or.inr rfl, fun u => by norm_num, by decide,
    C3_expired_clock
      { search_depth := 3, score := fun _ _ => finV 0, iterative := false,
        method := "alphabeta", TIMER_THRESHOLD := 10 }
      boardOne () (2, 3) [(4, 5)] (fun _ => 0) (Or.inr rfl)
      (fun u => by norm_num) (by decide) 5⟩

/-- C6: the evaluation perspective is invariant across the whole recursion:
two score functions that agree on the root state's active player (while
differing arbitrarily on every other player) give identical minimax and
alphabeta results, for every depth and window — so no leaf is ever scored
from the successor state's mover. -/
theorem C6_perspective_fixed (B : Board σ π) (f1 f2 : σ → π → Val) (g : σ)
    (d : ℕ) (a b : Val)
    (h : ∀ s, f1 s (B.active_player g) = f2 s (B.active_player g)) :
    minimax B f1 g d = minimax B f2 g d ∧
    alphabeta B f1 g d a b = alphabeta B f2 g d a b := by
  constructor
  · simp only [minimax]
    exact (minimax_value_congr B f1 f2 (B.active_player g) h d g).1
  · simp only [alphabeta]
    exact (alphabeta_value_congr B f1 f2 (B.active_player g) h d g a b).1

theorem C6_witness :
    (∀ s : ℕ, (fun (_ : ℕ) (p : Bool) => if p then finV 1 else finV 5) s
        (boardNat.active_player 0)
      = (fun (_ : ℕ) (p : Bool) => if p then finV 1 else finV 7) s
        (boardNat.active_player 0)) ∧
    (minimax boardNat (fun _ p => if p then finV 1 else finV 5) 0 2
        = minimax boardNat (fun _ p => if p then finV 1 else finV 7) 0 2 ∧
      alphabeta boardNat (fun _ p => if p then finV 1 else finV 5) 0 2 ⊥ ⊤
        = alphabeta boardNat (fun _ p => if p then finV 1 else finV 7) 0 2 ⊥ ⊤) :=
  ⟨fun s => by simp [boardNat],
    C6_perspective_fixed boardNat _ _ 0 2 ⊥ ⊤ (fun s => by simp [boardNat])⟩

/-- C10: with iterative deepening enabled, a recognized method, a non-empty
move list and a clock that never reports a value below the threshold, the
deepening loop never exits: for every fuel bound the driver is still
running (search_depth is never consulted; only a Timeout could stop it). -/
theorem C10_iterative_never_returns (P : CustomPlayer σ π) (B : Board σ π)
    (g : σ) (m0 : Move) (rest : List Move) (clock : ℕ → ℚ)
    (hit : P.iterative = true)
    (hmethod : P.method = "minimax" ∨ P.method = "alphabeta")
    (hclk : ∀ u, ¬ clock u < P.TIMER_THRESHOLD) :
    ∀ fuel, get_move P B g (m0 :: rest) clock fuel = none := by
  have hloop : ∀ fuel depth mv t,
      get_move_loop P B clock g fuel depth mv t = none := by
    intro fuel
    induction fuel with
    | zero => intro depth mv t; rfl
    | succ fuel ih =>
      intro depth mv t
      have hrs : ∃ pr t', run_search P B clock g depth t = (some pr, t') := by
        rcases hmethod with hm | hm
        · obtain ⟨t', ht⟩ :=
            minimaxT_complete B P.score clock P.TIMER_THRESHOLD hclk g depth t
          exact ⟨_, t', by rw [run_search, if_pos hm]; exact ht⟩
        · have hne : ¬ P.method = "minimax" := by rw [hm]; decide
          obtain ⟨t', ht⟩ :=
            alphabetaT_complete B P.score clock P.TIMER_THRESHOLD hclk g depth
              ⊥ ⊤ t
          exact ⟨_, t', by rw [run_search, if_neg hne]; exact ht⟩
      obtain ⟨⟨v, mv'⟩, t', ht⟩ := hrs
      rw [get_move_loop, if_pos (Or.inl hit), ht]
      exact ih (depth + 1) mv' t'
  intro fuel
  rw [get_move, if_pos hmethod]
  exact hloop fuel _ m0 0

theorem C10_witness :
    playerIter.iterative = true ∧
    (playerIter.method = "minimax" ∨ playerIter.method = "alphabeta") ∧
    (∀ u : ℕ, ¬ ((fun _ : ℕ => (100 : ℚ)) u < playerIter.TIMER_THRESHOLD)) ∧
    get_move playerIter boardOne () [(0, 0)] (fun _ => 100) 5 = none :=
  ⟨rfl, Or.inl rfl, fun u => by norm_num [playerIter],
    C10_iterative_never_returns playerIter boardOne () (0, 0) [] (fun _ => 100)
      rfl (Or.inl rfl) (fun u => by norm_num [playerIter]) 5⟩

/-- C5 (counterexample to the claim as stated): on a board with two legal
moves whose successors both evaluate to -infinity, the two child values tie
for best, yet minimax's max node returns the sentinel (-1,-1) — not the
first tied move (0,0) — because no child ever strictly improved on the
-infinity initialization. -/
theorem C5_counterexample :
    (minimax_min_value boardTie (fun _ _ => (⊥ : Val)) ()
        (boardTie.forecast_move () (0, 0)) 0).1
      = (minimax_min_value boardTie (fun _ _ => (⊥ : Val)) ()
        (boardTie.forecast_move () (1, 1)) 0).1 ∧
    boardTie.legal_moves () = [(0, 0), (1, 1)] ∧
    (minimax_max_value boardTie (fun _ _ => (⊥ : Val)) () () 1).2 = (-1, -1) ∧
    (minimax_max_value boardTie (fun _ _ => (⊥ : Val)) () () 1).2 ≠ (0, 0) := by
  refine ⟨?_, ?_, ?_, ?_⟩ <;> decide

/-- C5 (amended): the best value and move are updated only on strictly
better child values, so at a max node every child value is at most the
returned value, and whenever the returned value strictly exceeds the
-infinity initialization the returned move is the first move in enumeration
order attaining it, all earlier moves being strictly worse; when no child
improves on -infinity the node returns the sentinel NO_MOVE instead of a
tied move.  Dually at min nodes with the +infinity initialization.  At the
root, alphabeta with default bounds returns the identical pair, so the same
tie-break governs it. -/
theorem C5_strict_tiebreak (B : Board σ π) (score_fn : σ → π → Val)
    (player : π) (g : σ) (d : ℕ) (hne : B.legal_moves g ≠ []) :
    ((∀ x ∈ B.legal_moves g,
        (minimax_min_value B score_fn player (B.forecast_move g x) d).1
          ≤ (minimax_max_value B score_fn player g (d + 1)).1) ∧
     (⊥ < (minimax_max_value B score_fn player g (d + 1)).1 →
        ∃ pre x post, B.legal_moves g = pre ++ x :: post ∧
          (minimax_max_value B score_fn player g (d + 1)).2 = x ∧
          (minimax_min_value B score_fn player (B.forecast_move g x) d).1
            = (minimax_max_value B score_fn player g (d + 1)).1 ∧
          ∀ y ∈ pre,
            (minimax_min_value B score_fn player (B.forecast_move g y) d).1
              < (minimax_max_value B score_fn player g (d + 1)).1) ∧
     ((minimax_max_value B score_fn player g (d + 1)).1 = ⊥ →
        (minimax_max_value B score_fn player g (d + 1)).2 = noMove)) ∧
    ((∀ x ∈ B.legal_moves g,
        (minimax_min_value B score_fn player g (d + 1)).1
          ≤ (minimax_max_value B score_fn player (B.forecast_move g x) d).1) ∧
     ((minimax_min_value B score_fn player g (d + 1)).1 < ⊤ →
        ∃ pre x post, B.legal_moves g = pre ++ x :: post ∧
          (minimax_min_value B score_fn player g (d + 1)).2 = x ∧
          (minimax_max_value B score_fn player (B.forecast_move g x) d).1
            = (minimax_min_value B score_fn player g (d + 1)).1 ∧
          ∀ y ∈ pre,
            (minimax_min_value B score_fn player g (d + 1)).1
              < (minimax_max_value B score_fn player (B.forecast_move g y) d).1) ∧
     ((minimax_min_value B score_fn player g (d + 1)).1 = ⊤ →
        (minimax_min_value B score_fn player g (d + 1)).2 = noMove)) ∧
    alphabeta B score_fn g (d + 1) = minimax B score_fn g (d + 1) := by
  have hmax := mm_loop_max_char
    (fun m => (minimax_min_value B score_fn player (B.forecast_move g m) d).1)
    (B.legal_moves g) ⊥ noMove
  have hmin := mm_loop_min_char
    (fun m => (minimax_max_value B score_fn player (B.forecast_move g m) d).1)
    (B.legal_moves g) infinity noMove
  refine ⟨⟨?_, ?_, ?_⟩, ⟨?_, ?_, ?_⟩, alphabeta_eq_minimax B score_fn g (d + 1)⟩
  · intro x hx
    simp only [minimax_max_value, if_neg hne]
    exact mm_loop_max_ub
      (fun m => (minimax_min_value B score_fn player (B.forecast_move g m) d).1)
      (B.legal_moves g) ⊥ noMove x hx
  · simp only [minimax_max_value, if_neg hne]
    intro hpos
    rcases hmax with ⟨h1, h2⟩ | ⟨pre, x, post, hsplit, hmv, hfx, hlt, hpre⟩
    · exact absurd h1 (ne_of_gt hpos)
    · exact ⟨pre, x, post, hsplit, hmv, hfx, hpre⟩
  · simp only [minimax_max_value, if_neg hne]
    intro hbot
    rcases hmax with ⟨h1, h2⟩ | ⟨pre, x, post, hsplit, hmv, hfx, hlt, hpre⟩
    · exact h2
    · rw [hbot] at hlt
      exact absurd hlt (lt_irrefl ⊥)
  · intro x hx
    simp only [minimax_min_value, if_neg hne]
    exact mm_loop_min_lb
      (fun m => (minimax_max_value B score_fn player (B.forecast_move g m) d).1)
      (B.legal_moves g) infinity noMove x hx
  · simp only [minimax_min_value, if_neg hne]
    intro hpos
    rcases hmin with ⟨h1, h2⟩ | ⟨pre, x, post, hsplit, hmv, hfx, hlt, hpre⟩
    · rw [h1] at hpos
      exact absurd hpos (by rw [infinity_def]; exact lt_irrefl ⊤)
    · exact ⟨pre, x, post, hsplit, hmv, hfx, hpre⟩
  · simp only [minimax_min_value, if_neg hne]
    intro htop
    rcases hmin with ⟨h1, h2⟩ | ⟨pre, x, post, hsplit, hmv, hfx, hlt, hpre⟩
    · exact h2
    · rw [htop, infinity_def] at hlt
      exact absurd hlt (lt_irrefl ⊤)

theorem C5_witness :
    boardTwo.legal_moves 0 ≠ [] ∧
    (((∀ x ∈ boardTwo.legal_moves 0,
        (minimax_min_value boardTwo (fun n _ => finV n) ()
            (boardTwo.forecast_move 0 x) 0).1
          ≤ (minimax_max_value boardTwo (fun n _ => finV n) () 0 1).1) ∧
      (⊥ < (minimax_max_value boardTwo (fun n _ => finV n) () 0 1).1 →
        ∃ pre x post, boardTwo.legal_moves 0 = pre ++ x :: post ∧
          (minimax_max_value boardTwo (fun n _ => finV n) () 0 1).2 = x ∧
          (minimax_min_value boardTwo (fun n _ => finV n) ()
              (boardTwo.forecast_move 0 x) 0).1
            = (minimax_max_value boardTwo (fun n _ => finV n) () 0 1).1 ∧
          ∀ y ∈ pre,
            (minimax_min_value boardTwo (fun n _ => finV n) ()
                (boardTwo.forecast_move 0 y) 0).1
              < (minimax_max_value boardTwo (fun n _ => finV n) () 0 1).1) ∧
      ((minimax_max_value boardTwo (fun n _ => finV n) () 0 1).1 = ⊥ →
        (minimax_max_value boardTwo (fun n _ => finV n) () 0 1).2 = noMove)) ∧
     ((∀ x ∈ boardTwo.legal_moves 0,
        (minimax_min_value boardTwo (fun n _ => finV n) () 0 1).1
          ≤ (minimax_max_value boardTwo (fun n _ => finV n) ()
              (boardTwo.forecast_move 0 x) 0).1) ∧
      ((minimax_min_value boardTwo (fun n _ => finV n) () 0 1).1 < ⊤ →
        ∃ pre x post, boardTwo.legal_moves 0 = pre ++ x :: post ∧
          (minimax_min_value boardTwo (fun n _ => finV n) () 0 1).2 = x ∧
          (minimax_max_value boardTwo (fun n _ => finV n) ()
              (boardTwo.forecast_move 0 x) 0).1
            = (minimax_min_value boardTwo (fun n _ => finV n) () 0 1).1 ∧
          ∀ y ∈ pre,
            (minimax_min_value boardTwo (fun n _ => finV n) () 0 1).1
              < (minimax_max_value boardTwo (fun n _ => finV n) ()
                  (boardTwo.forecast_move 0 y) 0).1) ∧
      ((minimax_min_value boardTwo (fun n _ => finV n) () 0 1).1 = ⊤ →
        (minimax_min_value boardTwo (fun n _ => finV n) () 0 1).2 = noMove)) ∧
     alphabeta boardTwo (fun n _ => finV n) 0 1
       = minimax boardTwo (fun n _ => finV n) 0 1) :=
  ⟨by decide, C5_strict_tiebreak boardTwo (fun n _ => finV n) () 0 0 (by decide)⟩

/-- C8 (counterexample to the claim as stated): on a state where the player
is flagged neither loser nor winner but has no legal moves (in the real game:
an inactive player currently blocked while the active opponent still has
moves), custom_score returns -infinity even though is_loser is false — so
-infinity is not returned exactly when the player is in a losing terminal
state, and the "otherwise finite" clause fails as well. -/
theorem C8_counterexample :
    custom_score boardBlocked () () = ⊥ ∧
    boardBlocked.is_loser () () = false ∧
    boardBlocked.is_winner () () = false := by
  refine ⟨by decide, rfl, rfl⟩

/-- C8 (amended): custom_score returns -infinity exactly when the player is
flagged a loser or (not being flagged a winner) has no legal moves; it
returns +infinity exactly when the player is not flagged a loser and is
flagged a winner; and it returns a finite rational exactly in the remaining
case (not loser, not winner, at least one legal move). -/
theorem C8_amended (B : Board σ π) (g : σ) (p : π) :
    (custom_score B g p = ⊥ ↔
      (B.is_loser g p = true ∨
        (B.is_winner g p = false ∧ B.get_legal_moves g p = []))) ∧
    (custom_score B g p = ⊤ ↔
      (B.is_loser g p = false ∧ B.is_winner g p = true)) ∧
    ((∃ q : ℚ, custom_score B g p = finV q) ↔
      (B.is_loser g p = false ∧ B.is_winner g p = false ∧
        B.get_legal_moves g p ≠ [])) := by
  cases hl : B.is_loser g p with
  | true =>
    simp only [custom_score, custom_score_lookahead_both, hl, if_true]
    refine ⟨?_, ?_, ?_⟩
    · simp
    · constructor
      · intro h; exact absurd h bot_ne_top
      · rintro ⟨hf, _⟩; cases hf
    · constructor
      · rintro ⟨q, hq⟩; exact absurd hq.symm (finV_ne_bot q)
      · rintro ⟨hf, _⟩; cases hf
  | false =>
    cases hw : B.is_winner g p with
    | true =>
      simp only [custom_score, custom_score_lookahead_both, hl, hw,
        if_true, if_false, Bool.false_eq_true, infinity_def]
      refine ⟨?_, ?_, ?_⟩
      · constructor
        · intro h; exact absurd h.symm bot_ne_top
        · rintro (hf | ⟨hf, _⟩)
          · cases hf
          · cases hf
      · simp
      · constructor
        · rintro ⟨q, hq⟩; exact absurd hq.symm (finV_ne_top q)
        · rintro ⟨_, hf, _⟩; cases hf
    | false =>
      by_cases hmv : (B.get_legal_moves g p).length = 0
      · have hnil : B.get_legal_moves g p = [] := List.length_eq_zero.mp hmv
        simp only [custom_score, custom_score_lookahead_both, hl, hw,
          if_false, Bool.false_eq_true, hmv, if_true]
        refine ⟨?_, ?_, ?_⟩
        · simp [hnil]
        · constructor
          · intro h; exact absurd h bot_ne_top
          · rintro ⟨_, hf⟩; cases hf
        · constructor
          · rintro ⟨q, hq⟩; exact absurd hq.symm (finV_ne_bot q)
          · rintro ⟨_, _, hf⟩; exact absurd hnil hf
      · have hnil : B.get_legal_moves g p ≠ [] := by
          intro h; exact hmv (by rw [h]; rfl)
        simp only [custom_score, custom_score_lookahead_both, hl, hw,
          if_false, Bool.false_eq_true, hmv, if_true]
        refine ⟨?_, ?_, ?_⟩
        · constructor
          · intro h; exact absurd h (finV_ne_bot _)
          · rintro (hf | ⟨_, hf⟩)
            · cases hf
            · exact absurd hf hnil
        · constructor
          · intro h; exact absurd h (finV_ne_top _)
          · rintro ⟨_, hf⟩; cases hf
        · exact ⟨fun _ => ⟨by simp, by simp, hnil⟩, fun _ => ⟨_, rfl⟩⟩
